import Mathlib

/-!
Verification of the QUBO-construction core of the quantum-protein-folding
script (`main.py`).

The script builds, from a residue sequence over the alphabet \x7bH, P\x7d and a
lattice size `L = N / 2 + 1` (with `N` the sequence length), a QUBO mapping
from pairs of binary variables to integer coefficients.  Variables are the
triples `(i, j, k)` meaning "bead `i` sits at grid coordinate `(j, k)`",
restricted by the checkerboard parity rule `(j + k) % 2 == i % 2`.  In the
script a variable is named by the string `"x_i_j_k"`; that encoding is
injective (proved below as `nameChars_inj`), so the QUBO construction is
modelled here with the triples themselves as variable identities.

Four loops add entries into the dictionary `Q`, each with the accumulation
pattern `Q[key] = Q.get(key, 0) + coeff`:

* term 1: hydrophobic interaction, coefficient `-1`;
* term 2: one-site-per-bead penalty, coefficient `+2`;
* term 3: self-avoidance penalty, coefficient `+10`;
* term 4: chain-connectivity reward, coefficient `-3`.

Each loop is embedded as a list of `(key, coefficient)` entries produced in
the source's iteration order, and the dictionary is the left fold of the
additive update over that list.
-/

set_option maxHeartbeats 1000000

/-- A binary decision variable `(i, j, k)`: bead `i` occupies coordinate
`(j, k)`.  In the script this is the string `"x_i_j_k"`. -/
abbrev Var : Type := Nat × Nat × Nat

/-- A key of the QUBO dictionary: an ordered pair of variables. -/
abbrev QKey : Type := Var × Var

/-- One addition performed on the QUBO dictionary: a key and the integer
added to that key's coefficient. -/
abbrev QEntry : Type := QKey × Int

/-- The lattice size `L = (len(sequence) // 2) + 1` from the script. -/
def latticeSize (N : Nat) : Nat := N / 2 + 1

/-- The variable dictionary keys:
`{(i, j, k) for i in range(N) for j in range(L) for k in range(L)
   if (j + k) % 2 == i % 2}`. -/
def variablesOf (N L : Nat) : List Var :=
  (List.range N).flatMap fun i =>
    (List.range L).flatMap fun j =>
      ((List.range L).filter fun k => decide ((j + k) % 2 = i % 2)).map fun k =>
        (i, j, k)

/-- `interaction(h1, h2) = -1 if h1 == 'H' and h2 == 'H' else 0`. -/
def interaction (h1 h2 : Char) : Int :=
  if h1 = 'H' ∧ h2 = 'H' then -1 else 0

/-- `abs(j - jp) + abs(k - kp)` computed on integers, as in the script. -/
def manhattan (j jp k kp : Nat) : Nat :=
  ((j : Int) - (jp : Int)).natAbs + ((k : Int) - (kp : Int)).natAbs

/-- Term 1 entries, in source order: for `f`, for `fp in range(f+2, N)`, if
`interaction(sequence[f], sequence[fp]) != 0`, for all `j k jp kp < L`, if
the coordinates are grid neighbours and match the beads' parities, add
`interaction(sequence[f], sequence[fp])` to the key
`(variables[f,j,k], variables[fp,jp,kp])`. -/
def term1Entries (seq : List Char) (L : Nat) : List QEntry :=
  (List.range seq.length).flatMap fun f =>
    (List.range' (f + 2) (seq.length - (f + 2))).flatMap fun fp =>
      if interaction (seq.getD f ' ') (seq.getD fp ' ') ≠ 0 then
        (List.range L).flatMap fun j =>
          (List.range L).flatMap fun k =>
            (List.range L).flatMap fun jp =>
              (List.range L).flatMap fun kp =>
                if manhattan j jp k kp = 1 then
                  if (j + k) % 2 = f % 2 ∧ (jp + kp) % 2 = fp % 2 then
                    [(((f, j, k), (fp, jp, kp)),
                      interaction (seq.getD f ' ') (seq.getD fp ' '))]
                  else []
                else []
      else []

/-- The `one_site` list of the script: all variables of bead `i` at
coordinates other than `(j, k)`. -/
def oneSite (L i j k : Nat) : List Var :=
  (List.range L).flatMap fun jp =>
    ((List.range L).filter fun kp =>
        decide ((jp + kp) % 2 = i % 2 ∧ (jp, kp) ≠ (j, k))).map fun kp =>
      (i, jp, kp)

/-- Term 2 entries: for each bead `i` and each valid coordinate `(j, k)`,
add `+2` to `(variables[i,j,k], var)` for every `var` in `one_site`. -/
def term2Entries (N L : Nat) : List QEntry :=
  (List.range N).flatMap fun i =>
    (List.range L).flatMap fun j =>
      (List.range L).flatMap fun k =>
        if (j + k) % 2 = i % 2 then
          (oneSite L i j k).map fun v => (((i, j, k), v), 2)
        else []

/-- The `beads` list of the script at coordinate `(j, k)`:
`[variables[i,j,k] for i in range(N) if (i,j,k) in variables]`. -/
def beadsAt (N L j k : Nat) : List Var :=
  ((List.range N).filter fun i => decide ((i, j, k) ∈ variablesOf N L)).map fun i =>
    (i, j, k)

/-- Index-pair enumeration `for b1 in range(len(l)): for b2 in range(b1+1, len(l))`
returning `(l[b1], l[b2])`. -/
def pairsOf (l : List Var) : List QKey :=
  (List.range l.length).flatMap fun b1 =>
    (List.range' (b1 + 1) (l.length - (b1 + 1))).map fun b2 =>
      (l.getD b1 (0, 0, 0), l.getD b2 (0, 0, 0))

/-- Term 3 entries: for each coordinate, `+10` on every index pair of the
`beads` list, guarded by `len(beads) > 1`. -/
def term3Entries (N L : Nat) : List QEntry :=
  (List.range L).flatMap fun j =>
    (List.range L).flatMap fun k =>
      if 1 < (beadsAt N L j k).length then
        (pairsOf (beadsAt N L j k)).map fun p => (p, 10)
      else []

/-- The `possible_next_positions` list of the script. -/
def possibleNext (L i j k : Nat) : List (Nat × Nat) :=
  (List.range L).flatMap fun jp =>
    ((List.range L).filter fun kp =>
        decide (manhattan j jp k kp = 1 ∧ (jp + kp) % 2 = (i + 1) % 2)).map fun kp =>
      (jp, kp)

/-- Term 4 entries: for `i in range(N-1)` and each valid `(j, k)`, add `-3`
to `(variables[i,j,k], variables[i+1,jp,kp])` for every possible next
position, guarded by `possible_next_positions` being nonempty. -/
def term4Entries (N L : Nat) : List QEntry :=
  (List.range (N - 1)).flatMap fun i =>
    (List.range L).flatMap fun j =>
      (List.range L).flatMap fun k =>
        if (j + k) % 2 = i % 2 then
          if possibleNext L i j k ≠ [] then
            (possibleNext L i j k).map fun c => (((i, j, k), (i + 1, c.1, c.2)), -3)
          else []
        else []

/-- All dictionary additions performed by the script, in program order. -/
def allEntries (seq : List Char) : List QEntry :=
  term1Entries seq (latticeSize seq.length) ++
    term2Entries seq.length (latticeSize seq.length) ++
      term3Entries seq.length (latticeSize seq.length) ++
        term4Entries seq.length (latticeSize seq.length)

/-- One dictionary update `Q[key] = Q.get(key, 0) + coeff` (term 1 spells
this as `Q[pair] += v` when the key is present and `Q[pair] = v` otherwise,
which is the same map). -/
def applyEntry (q : QKey → Option Int) (e : QEntry) : QKey → Option Int :=
  fun p => if p = e.1 then some ((q e.1).getD 0 + e.2) else q p

/-- The dictionary obtained by folding a list of additions into the empty
dictionary. -/
def buildQ (entries : List QEntry) : QKey → Option Int :=
  entries.foldl applyEntry fun _ => none

/-- The final QUBO dictionary `Q` of the script, as a partial map from keys
to coefficients (`none` models an absent key). -/
def Q (seq : List Char) : QKey → Option Int :=
  buildQ (allEntries seq)

/-- Sum of all additions targeted at key `p` in an entry list. -/
def contribSum (entries : List QEntry) (p : QKey) : Int :=
  ((entries.filter fun e => decide (e.1 = p)).map fun e => e.2).sum

/-! ### Generic list lemmas -/

lemma mem_ite_nil {α : Type} {c : Prop} [Decidable c] {l : List α} {x : α} :
    (x ∈ if c then l else []) ↔ c ∧ x ∈ l := by
  split_ifs with h <;> simp [h]

lemma guard_nonempty_map {α β : Type} (l : List α) (f : α → β)
    [Decidable (l ≠ [])] :
    (if l ≠ [] then l.map f else []) = l.map f := by
  split_ifs with h
  · rfl
  · rw [not_ne_iff.mp h]; rfl

lemma ite_ite_nil {α : Type} {c₁ c₂ : Prop} [Decidable c₁] [Decidable c₂]
    (l : List α) :
    (if c₁ then (if c₂ then l else []) else []) = if c₁ ∧ c₂ then l else [] := by
  split_ifs <;> simp_all

lemma flatMap_ite_singleton {α β : Type} (l : List α) (p : α → Prop)
    [DecidablePred p] (f : α → β) :
    (l.flatMap fun a => if p a then [f a] else []) =
      (l.filter fun a => decide (p a)).map f := by
  induction l with
  | nil => rfl
  | cons a as ih =>
    simp only [List.flatMap_cons, List.filter_cons]
    by_cases h : p a <;> simp [h, ih]

lemma nodup_flatMap_pair {α β : Type} {l : List α} {g : α → List β}
    (hl : l.Nodup) (hg : ∀ a ∈ l, (g a).Nodup) :
    (l.flatMap fun a => (g a).map fun b => (a, b)).Nodup := by
  induction l with
  | nil => simp
  | cons a as ih =>
    simp only [List.flatMap_cons]
    refine List.Nodup.append ?_ ?_ ?_
    · exact (hg a (List.mem_cons_self a as)).map
        (fun b1 b2 h => ((Prod.mk.injEq _ _ _ _).mp h).2)
    · exact ih (List.Nodup.of_cons hl) (fun a' ha' => hg a' (List.mem_cons_of_mem a ha'))
    · intro x hx hx'
      obtain ⟨b, -, rfl⟩ := List.mem_map.mp hx
      obtain ⟨a', ha', hx'⟩ := List.mem_flatMap.mp hx'
      obtain ⟨b', -, hb'⟩ := List.mem_map.mp hx'
      have : a' = a := congrArg Prod.fst hb'
      subst this
      exact (List.nodup_cons.mp hl).1 ha'

/-! ### Accumulation lemmas for the dictionary fold -/

lemma contribSum_nil (p : QKey) : contribSum [] p = 0 := rfl

lemma contribSum_cons (e : QEntry) (entries : List QEntry) (p : QKey) :
    contribSum (e :: entries) p =
      (if e.1 = p then e.2 else 0) + contribSum entries p := by
  simp only [contribSum, List.filter_cons]
  by_cases h : e.1 = p <;> simp [h]

lemma contribSum_append (l₁ l₂ : List QEntry) (p : QKey) :
    contribSum (l₁ ++ l₂) p = contribSum l₁ p + contribSum l₂ p := by
  simp [contribSum, List.filter_append]

lemma contribSum_perm {l₁ l₂ : List QEntry} (h : l₁.Perm l₂) (p : QKey) :
    contribSum l₁ p = contribSum l₂ p :=
  ((h.filter _).map _).sum_eq

lemma contribSum_eq_zero {entries : List QEntry} {p : QKey}
    (h : ∀ e ∈ entries, e.1 ≠ p) : contribSum entries p = 0 := by
  induction entries with
  | nil => rfl
  | cons e es ih =>
    rw [contribSum_cons, if_neg (h e (List.mem_cons_self e es)),
      ih (fun e' he' => h e' (List.mem_cons_of_mem e he'))]
    simp

lemma contribSum_eq_of_mem {entries : List QEntry}
    (hnd : (entries.map Prod.fst).Nodup) {p : QKey} {c : Int}
    (h : (p, c) ∈ entries) : contribSum entries p = c := by
  induction entries with
  | nil => cases h
  | cons e es ih =>
    rw [List.map_cons, List.nodup_cons] at hnd
    rcases List.mem_cons.mp h with h | h
    · subst h
      rw [contribSum_cons, if_pos rfl, contribSum_eq_zero, add_zero]
      intro e' he' hfst
      apply hnd.1
      show p ∈ es.map Prod.fst
      rw [← hfst]
      exact List.mem_map_of_mem Prod.fst he'
    · have hne : e.1 ≠ p := by
        intro hfst
        exact hnd.1 (by rw [hfst]; exact List.mem_map_of_mem Prod.fst h)
      rw [contribSum_cons, if_neg hne, ih hnd.2 h, zero_add]

lemma foldl_applyEntry_getD (entries : List QEntry) :
    ∀ (q : QKey → Option Int) (p : QKey),
      ((entries.foldl applyEntry q) p).getD 0 = (q p).getD 0 + contribSum entries p := by
  induction entries with
  | nil => intro q p; simp [contribSum]
  | cons e es ih =>
    intro q p
    rw [List.foldl_cons, ih, contribSum_cons]
    unfold applyEntry
    by_cases h : p = e.1
    · subst h; simp; ring
    · rw [if_neg h, if_neg (fun hh => h hh.symm), zero_add]

lemma foldl_applyEntry_of_not_mem (entries : List QEntry) :
    ∀ (q : QKey → Option Int) (p : QKey), (∀ e ∈ entries, e.1 ≠ p) →
      (entries.foldl applyEntry q) p = q p := by
  induction entries with
  | nil => intro q p _; rfl
  | cons e es ih =>
    intro q p h
    rw [List.foldl_cons, ih _ _ (fun e' he' => h e' (List.mem_cons_of_mem e he'))]
    unfold applyEntry
    rw [if_neg (fun hh => h e (List.mem_cons_self e es) hh.symm)]

lemma foldl_applyEntry_isSome_mono (entries : List QEntry) :
    ∀ (q : QKey → Option Int) (p : QKey), (q p).isSome →
      ((entries.foldl applyEntry q) p).isSome := by
  induction entries with
  | nil => intro q p h; exact h
  | cons e es ih =>
    intro q p h
    rw [List.foldl_cons]
    refine ih _ _ ?_
    unfold applyEntry
    by_cases hp : p = e.1
    · rw [if_pos hp]; rfl
    · rw [if_neg hp]; exact h

lemma foldl_applyEntry_isSome (entries : List QEntry) :
    ∀ (q : QKey → Option Int) (p : QKey), (∃ e ∈ entries, e.1 = p) →
      ((entries.foldl applyEntry q) p).isSome := by
  induction entries with
  | nil => rintro q p ⟨e, he, -⟩; cases he
  | cons e es ih =>
    rintro q p ⟨e', he', hfst⟩
    rw [List.foldl_cons]
    rcases List.mem_cons.mp he' with h | h
    · subst h
      refine foldl_applyEntry_isSome_mono es _ _ ?_
      unfold applyEntry
      rw [if_pos hfst.symm]; rfl
    · exact ih _ _ ⟨e', h, hfst⟩

lemma buildQ_getD (entries : List QEntry) (p : QKey) :
    (buildQ entries p).getD 0 = contribSum entries p := by
  unfold buildQ
  rw [foldl_applyEntry_getD]
  simp

lemma buildQ_eq_none {entries : List QEntry} {p : QKey}
    (h : ∀ e ∈ entries, e.1 ≠ p) : buildQ entries p = none := by
  unfold buildQ
  exact foldl_applyEntry_of_not_mem entries (fun _ => none) p h

lemma buildQ_eq_some {entries : List QEntry} {p : QKey}
    (h : ∃ e ∈ entries, e.1 = p) :
    buildQ entries p = some (contribSum entries p) := by
  have hs : (buildQ entries p).isSome :=
    foldl_applyEntry_isSome entries (fun _ => none) p h
  obtain ⟨v, hv⟩ := Option.isSome_iff_exists.mp hs
  have hg := buildQ_getD entries p
  rw [hv] at hg ⊢
  simp only [Option.getD_some] at hg
  rw [hg]

/-! ### The variable set: membership, dedup, counting -/

lemma mem_variablesOf {N L i j k : Nat} :
    (i, j, k) ∈ variablesOf N L ↔
      i < N ∧ j < L ∧ k < L ∧ (j + k) % 2 = i % 2 := by
  simp only [variablesOf, List.mem_flatMap, List.mem_range, List.mem_map,
    List.mem_filter, decide_eq_true_eq, Prod.mk.injEq]
  constructor
  · rintro ⟨a, ha, b, hb, c, ⟨hc, hp⟩, rfl, rfl, rfl⟩
    exact ⟨ha, hb, hc, hp⟩
  · rintro ⟨hi, hj, hk, hp⟩
    exact ⟨i, hi, j, hj, k, ⟨hk, hp⟩, rfl, rfl, rfl⟩

lemma variablesOf_eq (N L : Nat) :
    variablesOf N L =
      (List.range N).flatMap fun i =>
        ((List.range L).flatMap fun j =>
          ((List.range L).filter fun k => decide ((j + k) % 2 = i % 2)).map fun k =>
            (j, k)).map fun r => (i, r) := by
  simp only [variablesOf, List.map_flatMap, List.map_map]
  rfl

lemma variablesOf_nodup (N L : Nat) : (variablesOf N L).Nodup := by
  rw [variablesOf_eq]
  refine nodup_flatMap_pair (List.nodup_range N) ?_
  intro i _
  refine nodup_flatMap_pair (List.nodup_range L) ?_
  intro j _
  exact (List.nodup_range L).filter _

lemma filter_parity_length (j p : Nat) (hp : p < 2) : ∀ L : Nat,
    ((List.range L).filter fun k => decide ((j + k) % 2 = p)).length =
      if j % 2 = p then (L + 1) / 2 else L / 2 := by
  intro L
  induction L with
  | zero => simp
  | succ L ih =>
    rw [List.range_succ, List.filter_append, List.length_append, ih]
    by_cases h : (j + L) % 2 = p <;> by_cases h2 : j % 2 = p <;>
      simp [h, h2] <;> omega

lemma sum_ite_parity (A B : Nat) : ∀ (L p : Nat), p < 2 →
    ((List.range L).map fun j => if j % 2 = p then A else B).sum =
      ((L + (1 - p)) / 2) * A + ((L + p) / 2) * B := by
  intro L
  induction L with
  | zero => intro p hp; interval_cases p <;> simp
  | succ L ih =>
    intro p hp
    rw [List.range_succ, List.map_append, List.sum_append, ih p hp]
    simp only [List.map_cons, List.map_nil, List.sum_cons, List.sum_nil, add_zero]
    by_cases h : L % 2 = p
    · rw [if_pos h, show (L + 1 + (1 - p)) / 2 = (L + (1 - p)) / 2 + 1 by omega,
        show (L + 1 + p) / 2 = (L + p) / 2 by omega]
      ring
    · rw [if_neg h, show (L + 1 + (1 - p)) / 2 = (L + (1 - p)) / 2 by omega,
        show (L + 1 + p) / 2 = (L + p) / 2 + 1 by omega]
      ring

lemma countP_flatMap {α : Type} (l : List α) (g : α → List Var)
    (p : Var → Bool) :
    ((l.flatMap g).countP p) = (l.map fun a => (g a).countP p).sum := by
  induction l with
  | nil => rfl
  | cons a as ih =>
    rw [List.flatMap_cons, List.countP_append, List.map_cons, List.sum_cons, ih]

lemma sum_map_eq_single {α : Type} [DecidableEq α] {l : List α} (F : α → Nat)
    {a : α} (hl : l.Nodup) (ha : a ∈ l) (h0 : ∀ b ∈ l, b ≠ a → F b = 0) :
    (l.map F).sum = F a := by
  induction l with
  | nil => cases ha
  | cons b bs ih =>
    rw [List.map_cons, List.sum_cons]
    rcases List.mem_cons.mp ha with h | h
    · subst h
      have : ∀ x ∈ bs.map F, x = 0 := by
        intro x hx
        obtain ⟨b', hb', rfl⟩ := List.mem_map.mp hx
        refine h0 b' (List.mem_cons_of_mem _ hb') ?_
        rintro rfl
        exact (List.nodup_cons.mp hl).1 hb'
      rw [List.sum_eq_zero this, add_zero]
    · have hb : F b = 0 := by
        refine h0 b (List.mem_cons_self b bs) ?_
        rintro rfl
        exact (List.nodup_cons.mp hl).1 h
      rw [hb, zero_add]
      exact ih (List.nodup_cons.mp hl).2 h
        (fun b' hb' => h0 b' (List.mem_cons_of_mem _ hb'))

lemma square_halves_even (L : Nat) :
    ((L + 1) / 2) * ((L + 1) / 2) + (L / 2) * (L / 2) = (L * L + 1) / 2 := by
  rcases Nat.even_or_odd L with ⟨m, rfl⟩ | ⟨m, rfl⟩
  · have d1 : (m + m + 1) / 2 = m := by omega
    have d2 : (m + m) / 2 = m := by omega
    have e : (m + m) * (m + m) = 4 * (m * m) := by ring
    rw [d1, d2, e]
    generalize m * m = t
    omega
  · have d1 : (2 * m + 1 + 1) / 2 = m + 1 := by omega
    have d2 : (2 * m + 1) / 2 = m := by omega
    have e : (2 * m + 1) * (2 * m + 1) = 4 * (m * m) + 4 * m + 1 := by ring
    have e2 : (m + 1) * (m + 1) = m * m + 2 * m + 1 := by ring
    rw [d1, d2, e, e2]
    generalize m * m = t
    omega

lemma square_halves_odd (L : Nat) :
    (L / 2) * ((L + 1) / 2) + ((L + 1) / 2) * (L / 2) = L * L / 2 := by
  rcases Nat.even_or_odd L with ⟨m, rfl⟩ | ⟨m, rfl⟩
  · have d1 : (m + m + 1) / 2 = m := by omega
    have d2 : (m + m) / 2 = m := by omega
    have e : (m + m) * (m + m) = 4 * (m * m) := by ring
    rw [d1, d2, e]
    generalize m * m = t
    omega
  · have d1 : (2 * m + 1 + 1) / 2 = m + 1 := by omega
    have d2 : (2 * m + 1) / 2 = m := by omega
    have e : (2 * m + 1) * (2 * m + 1) = 4 * (m * m) + 4 * m + 1 := by ring
    have e2 : m * (m + 1) = m * m + m := by ring
    have e3 : (m + 1) * m = m * m + m := by ring
    rw [d1, d2, e, e2, e3]
    generalize m * m = t
    omega

/-- The sub-list of `variablesOf` produced by one bead index `a`. -/
def beadChunk (L a : Nat) : List Var :=
  (List.range L).flatMap fun j =>
    ((List.range L).filter fun k => decide ((j + k) % 2 = a % 2)).map fun k =>
      (a, j, k)

lemma variablesOf_eq_chunks (N L : Nat) :
    variablesOf N L = (List.range N).flatMap (beadChunk L) := rfl

lemma beadChunk_fst {L a : Nat} {x : Var} (hx : x ∈ beadChunk L a) : x.1 = a := by
  simp only [beadChunk, List.mem_flatMap, List.mem_map] at hx
  obtain ⟨j, -, k, -, rfl⟩ := hx
  rfl

lemma beadChunk_length (L a : Nat) :
    (beadChunk L a).length = if a % 2 = 0 then (L * L + 1) / 2 else L * L / 2 := by
  unfold beadChunk
  rw [List.length_flatMap]
  rw [List.map_congr_left (g := fun j =>
    if j % 2 = a % 2 then (L + 1) / 2 else L / 2) ?_]
  · rw [sum_ite_parity ((L + 1) / 2) (L / 2) L (a % 2) (by omega)]
    rcases Nat.mod_two_eq_zero_or_one a with h | h <;> rw [h]
    · rw [show (L + (1 - 0)) / 2 = (L + 1) / 2 by omega,
        show (L + 0) / 2 = L / 2 by omega, if_pos rfl]
      exact square_halves_even L
    · rw [show (L + (1 - 1)) / 2 = L / 2 by omega, if_neg (by omega)]
      exact square_halves_odd L
  · intro j _
    simp only [Function.comp_apply, List.length_map]
    exact filter_parity_length j (a % 2) (by omega) L

lemma countP_variablesOf_chunk (N L i : Nat) (hi : i < N) :
    (variablesOf N L).countP (fun v => decide (v.1 = i)) =
      (beadChunk L i).length := by
  rw [variablesOf_eq_chunks, countP_flatMap]
  rw [sum_map_eq_single _ (List.nodup_range N) (List.mem_range.mpr hi) ?_]
  · rw [List.countP_eq_length_filter, List.filter_eq_self.mpr ?_]
    intro x hx
    simp [beadChunk_fst hx]
  · intro b _ hb
    rw [List.countP_eq_zero]
    intro x hx
    simp [beadChunk_fst hx, hb]

lemma countP_variablesOf (N L i : Nat) (hi : i < N) :
    (variablesOf N L).countP (fun v => decide (v.1 = i)) =
      if i % 2 = 0 then (L * L + 1) / 2 else L * L / 2 := by
  rw [countP_variablesOf_chunk N L i hi, beadChunk_length]

lemma length_variablesOf (N L : Nat) :
    (variablesOf N L).length =
      ((List.range N).map fun i =>
        (variablesOf N L).countP fun v => decide (v.1 = i)).sum := by
  rw [List.map_congr_left (g := fun i => (beadChunk L i).length) ?_]
  · rw [variablesOf_eq_chunks, List.length_flatMap]
    congr 1
  · intro i hi
    exact countP_variablesOf_chunk N L i (List.mem_range.mp hi)

/-! ### Loop-tuple views of the four terms

Each term's entry list equals the map of an entry-builder over the list of
loop-variable tuples the source iterates; that view yields dedup of the
keys and a membership characterization. -/

lemma mem_flatMap_pair {α β : Type} {l : List α} {g : α → List β} {x : α × β} :
    (x ∈ l.flatMap fun a => (g a).map fun b => (a, b)) ↔ x.1 ∈ l ∧ x.2 ∈ g x.1 := by
  simp only [List.mem_flatMap, List.mem_map]
  constructor
  · rintro ⟨a, ha, b, hb, rfl⟩
    exact ⟨ha, hb⟩
  · rintro ⟨h1, h2⟩
    exact ⟨x.1, h1, x.2, h2, rfl⟩

/-- Loop tuples `(i, j, k, jp, kp)` of the term-2 loops. -/
def t2Tuples (N L : Nat) : List (Nat × Nat × Nat × Nat × Nat) :=
  (List.range N).flatMap fun i =>
    ((List.range L).flatMap fun j =>
      ((List.range L).flatMap fun k =>
        (if (j + k) % 2 = i % 2 then
          (List.range L).flatMap fun jp =>
            ((List.range L).filter fun kp =>
              decide ((jp + kp) % 2 = i % 2 ∧ (jp, kp) ≠ (j, k))).map fun kp =>
              (jp, kp)
        else []).map fun r => (k, r)).map fun r => (j, r)).map fun r => (i, r)

/-- Entry built from one term-2 loop tuple. -/
def t2Mk (t : Nat × Nat × Nat × Nat × Nat) : QEntry :=
  (((t.1, t.2.1, t.2.2.1), (t.1, t.2.2.2.1, t.2.2.2.2)), 2)

lemma term2_eq_tuples (N L : Nat) :
    term2Entries N L = (t2Tuples N L).map t2Mk := by
  simp only [term2Entries, oneSite, t2Tuples, t2Mk, List.map_flatMap,
    List.map_map, apply_ite (List.map _), List.map_nil]
  rfl

lemma t2Tuples_nodup (N L : Nat) : (t2Tuples N L).Nodup := by
  refine nodup_flatMap_pair (List.nodup_range N) fun i _ => ?_
  refine nodup_flatMap_pair (List.nodup_range L) fun j _ => ?_
  refine nodup_flatMap_pair (List.nodup_range L) fun k _ => ?_
  split_ifs
  · exact nodup_flatMap_pair (List.nodup_range L) fun jp _ =>
      (List.nodup_range L).filter _
  · exact List.nodup_nil

lemma t2Mk_key_inj : Function.Injective (Prod.fst ∘ t2Mk) := by
  intro a b h
  obtain ⟨i, j, k, jp, kp⟩ := a
  obtain ⟨i', j', k', jp', kp'⟩ := b
  simp only [Function.comp_apply, t2Mk, Prod.mk.injEq] at h
  simp_all

lemma term2_keys_nodup (N L : Nat) :
    ((term2Entries N L).map Prod.fst).Nodup := by
  rw [term2_eq_tuples, List.map_map]
  exact (t2Tuples_nodup N L).map t2Mk_key_inj

lemma mem_t2Tuples {N L i j k jp kp : Nat} :
    (i, j, k, jp, kp) ∈ t2Tuples N L ↔
      i < N ∧ j < L ∧ k < L ∧ (j + k) % 2 = i % 2 ∧
      jp < L ∧ kp < L ∧ (jp + kp) % 2 = i % 2 ∧ (jp, kp) ≠ (j, k) := by
  simp only [t2Tuples, mem_flatMap_pair, mem_ite_nil, List.mem_range,
    List.mem_filter, decide_eq_true_eq]

lemma mem_term2 {N L : Nat} {e : QEntry} :
    e ∈ term2Entries N L ↔
      ∃ i j k jp kp, i < N ∧ j < L ∧ k < L ∧ jp < L ∧ kp < L ∧
        (j + k) % 2 = i % 2 ∧ (jp + kp) % 2 = i % 2 ∧ (jp, kp) ≠ (j, k) ∧
        e = (((i, j, k), (i, jp, kp)), 2) := by
  rw [term2_eq_tuples, List.mem_map]
  constructor
  · rintro ⟨⟨i, j, k, jp, kp⟩, ht, rfl⟩
    rw [mem_t2Tuples] at ht
    exact ⟨i, j, k, jp, kp, ht.1, ht.2.1, ht.2.2.1, ht.2.2.2.2.1,
      ht.2.2.2.2.2.1, ht.2.2.2.1, ht.2.2.2.2.2.2.1, ht.2.2.2.2.2.2.2, rfl⟩
  · rintro ⟨i, j, k, jp, kp, h1, h2, h3, h4, h5, h6, h7, h8, rfl⟩
    exact ⟨(i, j, k, jp, kp), mem_t2Tuples.mpr ⟨h1, h2, h3, h6, h4, h5, h7, h8⟩, rfl⟩

lemma mem_possibleNext {L i j k jp kp : Nat} :
    (jp, kp) ∈ possibleNext L i j k ↔
      jp < L ∧ kp < L ∧ manhattan j jp k kp = 1 ∧ (jp + kp) % 2 = (i + 1) % 2 := by
  simp only [possibleNext, mem_flatMap_pair, List.mem_range, List.mem_filter,
    decide_eq_true_eq]

lemma possibleNext_nodup (L i j k : Nat) : (possibleNext L i j k).Nodup :=
  nodup_flatMap_pair (List.nodup_range L) fun _ _ => (List.nodup_range L).filter _

/-- Loop tuples `(i, j, k, jp, kp)` of the term-4 loops. -/
def t4Tuples (N L : Nat) : List (Nat × Nat × Nat × Nat × Nat) :=
  (List.range (N - 1)).flatMap fun i =>
    ((List.range L).flatMap fun j =>
      ((List.range L).flatMap fun k =>
        (if (j + k) % 2 = i % 2 then
          if possibleNext L i j k ≠ [] then possibleNext L i j k else []
        else []).map fun r => (k, r)).map fun r => (j, r)).map fun r => (i, r)

/-- Entry built from one term-4 loop tuple. -/
def t4Mk (t : Nat × Nat × Nat × Nat × Nat) : QEntry :=
  (((t.1, t.2.1, t.2.2.1), (t.1 + 1, t.2.2.2.1, t.2.2.2.2)), -3)

lemma term4_eq_tuples (N L : Nat) :
    term4Entries N L = (t4Tuples N L).map t4Mk := by
  simp only [term4Entries, t4Tuples, t4Mk, List.map_flatMap, List.map_map,
    apply_ite (List.map _), List.map_nil]
  rfl

lemma t4Tuples_nodup (N L : Nat) : (t4Tuples N L).Nodup := by
  refine nodup_flatMap_pair (List.nodup_range (N - 1)) fun i _ => ?_
  refine nodup_flatMap_pair (List.nodup_range L) fun j _ => ?_
  refine nodup_flatMap_pair (List.nodup_range L) fun k _ => ?_
  split_ifs
  · exact possibleNext_nodup L i j k
  · exact List.nodup_nil
  · exact List.nodup_nil

lemma t4Mk_key_inj : Function.Injective (Prod.fst ∘ t4Mk) := by
  intro a b h
  obtain ⟨i, j, k, jp, kp⟩ := a
  obtain ⟨i', j', k', jp', kp'⟩ := b
  simp only [Function.comp_apply, t4Mk, Prod.mk.injEq] at h
  simp_all

lemma term4_keys_nodup (N L : Nat) :
    ((term4Entries N L).map Prod.fst).Nodup := by
  rw [term4_eq_tuples, List.map_map]
  exact (t4Tuples_nodup N L).map t4Mk_key_inj

lemma mem_t4Tuples {N L i j k jp kp : Nat} :
    (i, j, k, jp, kp) ∈ t4Tuples N L ↔
      i < N - 1 ∧ j < L ∧ k < L ∧ (j + k) % 2 = i % 2 ∧
      jp < L ∧ kp < L ∧ manhattan j jp k kp = 1 ∧
      (jp + kp) % 2 = (i + 1) % 2 := by
  simp only [t4Tuples, mem_flatMap_pair, mem_ite_nil, List.mem_range]
  constructor
  · rintro ⟨h1, h2, h3, h4, -, h5⟩
    have h6 := mem_possibleNext.mp h5
    exact ⟨h1, h2, h3, h4, h6.1, h6.2.1, h6.2.2.1, h6.2.2.2⟩
  · rintro ⟨h1, h2, h3, h4, h5, h6, h7, h8⟩
    have hm : (jp, kp) ∈ possibleNext L i j k :=
      mem_possibleNext.mpr ⟨h5, h6, h7, h8⟩
    exact ⟨h1, h2, h3, h4, List.ne_nil_of_mem hm, hm⟩

lemma mem_term4 {N L : Nat} {e : QEntry} :
    e ∈ term4Entries N L ↔
      ∃ i j k jp kp, i + 1 < N ∧ j < L ∧ k < L ∧ jp < L ∧ kp < L ∧
        (j + k) % 2 = i % 2 ∧ manhattan j jp k kp = 1 ∧
        (jp + kp) % 2 = (i + 1) % 2 ∧
        e = (((i, j, k), (i + 1, jp, kp)), -3) := by
  rw [term4_eq_tuples, List.mem_map]
  constructor
  · rintro ⟨⟨i, j, k, jp, kp⟩, ht, rfl⟩
    rw [mem_t4Tuples] at ht
    exact ⟨i, j, k, jp, kp, by omega, ht.2.1, ht.2.2.1, ht.2.2.2.2.1,
      ht.2.2.2.2.2.1, ht.2.2.2.1, ht.2.2.2.2.2.2.1, ht.2.2.2.2.2.2.2, rfl⟩
  · rintro ⟨i, j, k, jp, kp, h1, h2, h3, h4, h5, h6, h7, h8, rfl⟩
    exact ⟨(i, j, k, jp, kp),
      mem_t4Tuples.mpr ⟨by omega, h2, h3, h6, h4, h5, h7, h8⟩, rfl⟩

lemma interaction_ne_zero {a b : Char} :
    interaction a b ≠ 0 ↔ a = 'H' ∧ b = 'H' := by
  by_cases h : a = 'H' ∧ b = 'H' <;> simp [interaction, h]

lemma interaction_eq_neg_one {a b : Char} (h1 : a = 'H') (h2 : b = 'H') :
    interaction a b = -1 := by
  simp [interaction, h1, h2]

/-- Loop tuples `(f, fp, j, k, jp, kp)` of the term-1 loops. -/
def t1Tuples (seq : List Char) (L : Nat) :
    List (Nat × Nat × Nat × Nat × Nat × Nat) :=
  (List.range seq.length).flatMap fun f =>
    ((List.range' (f + 2) (seq.length - (f + 2))).flatMap fun fp =>
      (if interaction (seq.getD f ' ') (seq.getD fp ' ') ≠ 0 then
        (List.range L).flatMap fun j =>
          ((List.range L).flatMap fun k =>
            ((List.range L).flatMap fun jp =>
              ((List.range L).filter fun kp =>
                decide (manhattan j jp k kp = 1 ∧
                  ((j + k) % 2 = f % 2 ∧ (jp + kp) % 2 = fp % 2))).map fun kp =>
                (jp, kp)).map fun r => (k, r)).map fun r => (j, r)
      else []).map fun r => (fp, r)).map fun r => (f, r)

/-- Entry built from one term-1 loop tuple. -/
def t1Mk (seq : List Char) (t : Nat × Nat × Nat × Nat × Nat × Nat) : QEntry :=
  (((t.1, t.2.2.1, t.2.2.2.1), (t.2.1, t.2.2.2.2.1, t.2.2.2.2.2)),
    interaction (seq.getD t.1 ' ') (seq.getD t.2.1 ' '))

lemma term1_eq_tuples (seq : List Char) (L : Nat) :
    term1Entries seq L = (t1Tuples seq L).map (t1Mk seq) := by
  simp only [term1Entries, t1Tuples, t1Mk, List.map_flatMap, List.map_map,
    apply_ite (List.map _), List.map_nil, ite_ite_nil, flatMap_ite_singleton]
  rfl

lemma t1Tuples_nodup (seq : List Char) (L : Nat) : (t1Tuples seq L).Nodup := by
  refine nodup_flatMap_pair (List.nodup_range _) fun f _ => ?_
  refine nodup_flatMap_pair (List.nodup_range' _ _) fun fp _ => ?_
  split_ifs
  · refine nodup_flatMap_pair (List.nodup_range L) fun j _ => ?_
    refine nodup_flatMap_pair (List.nodup_range L) fun k _ => ?_
    exact nodup_flatMap_pair (List.nodup_range L) fun jp _ =>
      (List.nodup_range L).filter _
  · exact List.nodup_nil

lemma t1Mk_key_inj (seq : List Char) :
    Function.Injective (Prod.fst ∘ t1Mk seq) := by
  intro a b h
  obtain ⟨f, fp, j, k, jp, kp⟩ := a
  obtain ⟨f', fp', j', k', jp', kp'⟩ := b
  simp only [Function.comp_apply, t1Mk, Prod.mk.injEq] at h
  simp_all

lemma term1_keys_nodup (seq : List Char) (L : Nat) :
    ((term1Entries seq L).map Prod.fst).Nodup := by
  rw [term1_eq_tuples, List.map_map]
  exact (t1Tuples_nodup seq L).map (t1Mk_key_inj seq)

lemma mem_t1Tuples {seq : List Char} {L f fp j k jp kp : Nat} :
    (f, fp, j, k, jp, kp) ∈ t1Tuples seq L ↔
      f + 2 ≤ fp ∧ fp < seq.length ∧
      seq.getD f ' ' = 'H' ∧ seq.getD fp ' ' = 'H' ∧
      j < L ∧ k < L ∧ jp < L ∧ kp < L ∧ manhattan j jp k kp = 1 ∧
      (j + k) % 2 = f % 2 ∧ (jp + kp) % 2 = fp % 2 := by
  simp only [t1Tuples, mem_flatMap_pair, mem_ite_nil, List.mem_range,
    List.mem_range'_1, List.mem_filter, decide_eq_true_eq, interaction_ne_zero]
  constructor
  · rintro ⟨h1, ⟨h2a, h2b⟩, ⟨hH1, hH2⟩, h3, h4, h5, h6, h7, h8, h9⟩
    exact ⟨h2a, by omega, hH1, hH2, h3, h4, h5, h6, h7, h8, h9⟩
  · rintro ⟨h1, h2, hH1, hH2, h3, h4, h5, h6, h7, h8, h9⟩
    exact ⟨by omega, ⟨h1, by omega⟩, ⟨hH1, hH2⟩, h3, h4, h5, h6, h7, h8, h9⟩

lemma mem_term1 {seq : List Char} {L : Nat} {e : QEntry} :
    e ∈ term1Entries seq L ↔
      ∃ f fp j k jp kp, f + 2 ≤ fp ∧ fp < seq.length ∧
        seq.getD f ' ' = 'H' ∧ seq.getD fp ' ' = 'H' ∧
        j < L ∧ k < L ∧ jp < L ∧ kp < L ∧ manhattan j jp k kp = 1 ∧
        (j + k) % 2 = f % 2 ∧ (jp + kp) % 2 = fp % 2 ∧
        e = (((f, j, k), (fp, jp, kp)), -1) := by
  rw [term1_eq_tuples, List.mem_map]
  constructor
  · rintro ⟨⟨f, fp, j, k, jp, kp⟩, ht, rfl⟩
    rw [mem_t1Tuples] at ht
    obtain ⟨h1, h2, hH1, hH2, h3, h4, h5, h6, h7, h8, h9⟩ := ht
    refine ⟨f, fp, j, k, jp, kp, h1, h2, hH1, hH2, h3, h4, h5, h6, h7, h8, h9, ?_⟩
    simp only [t1Mk]
    rw [interaction_eq_neg_one hH1 hH2]
  · rintro ⟨f, fp, j, k, jp, kp, h1, h2, hH1, hH2, h3, h4, h5, h6, h7, h8, h9, rfl⟩
    refine ⟨(f, fp, j, k, jp, kp),
      mem_t1Tuples.mpr ⟨h1, h2, hH1, hH2, h3, h4, h5, h6, h7, h8, h9⟩, ?_⟩
    simp only [t1Mk]
    rw [interaction_eq_neg_one hH1 hH2]

lemma mem_beadsAt {N L j k : Nat} {v : Var} :
    v ∈ beadsAt N L j k ↔
      ∃ i, i < N ∧ j < L ∧ k < L ∧ (j + k) % 2 = i % 2 ∧ v = (i, j, k) := by
  simp only [beadsAt, List.mem_map, List.mem_filter, List.mem_range,
    decide_eq_true_eq, mem_variablesOf]
  constructor
  · rintro ⟨i, ⟨hi, -, hj, hk, hp⟩, rfl⟩
    exact ⟨i, hi, hj, hk, hp, rfl⟩
  · rintro ⟨i, hi, hj, hk, hp, rfl⟩
    exact ⟨i, ⟨hi, hi, hj, hk, hp⟩, rfl⟩

lemma beadsAt_sorted (N L j k : Nat) :
    (beadsAt N L j k).Pairwise fun a b => a.1 < b.1 := by
  refine List.Pairwise.map _ (fun a b h => ?_) ((List.pairwise_lt_range N).filter _)
  exact h

lemma beadsAt_nodup (N L j k : Nat) : (beadsAt N L j k).Nodup := by
  refine (beadsAt_sorted N L j k).imp fun {a b} h => ?_
  intro he
  rw [he] at h
  exact lt_irrefl _ h

lemma mem_pairsOf {l : List Var} (hs : l.Pairwise fun a b => a.1 < b.1)
    {x y : Var} :
    (x, y) ∈ pairsOf l ↔ x ∈ l ∧ y ∈ l ∧ x.1 < y.1 := by
  have hnd : l.Nodup := by
    refine hs.imp fun {a b} h => ?_
    intro he
    rw [he] at h
    exact lt_irrefl _ h
  constructor
  · intro hx
    simp only [pairsOf, List.mem_flatMap, List.mem_range, List.mem_map,
      List.mem_range'_1] at hx
    obtain ⟨b1, hb1, b2, ⟨hb2a, hb2b⟩, heq⟩ := hx
    have hb2 : b2 < l.length := by omega
    rw [List.getD_eq_getElem l _ hb1, List.getD_eq_getElem l _ hb2,
      Prod.mk.injEq] at heq
    obtain ⟨rfl, rfl⟩ := heq
    refine ⟨List.getElem_mem hb1, List.getElem_mem hb2, ?_⟩
    exact List.pairwise_iff_getElem.mp hs b1 b2 hb1 hb2 (by omega)
  · rintro ⟨hx, hy, hlt⟩
    obtain ⟨b1, hb1, rfl⟩ := List.mem_iff_getElem.mp hx
    obtain ⟨b2, hb2, rfl⟩ := List.mem_iff_getElem.mp hy
    have hord : b1 < b2 := by
      rcases Nat.lt_trichotomy b1 b2 with h | h | h
      · exact h
      · subst h
        exact absurd hlt (lt_irrefl _)
      · exact absurd (List.pairwise_iff_getElem.mp hs b2 b1 hb2 hb1 h)
          (by omega)
    simp only [pairsOf, List.mem_flatMap, List.mem_range, List.mem_map,
      List.mem_range'_1]
    refine ⟨b1, hb1, b2, ⟨by omega, by omega⟩, ?_⟩
    rw [List.getD_eq_getElem l _ hb1, List.getD_eq_getElem l _ hb2]

/-- Loop tuples `(j, k, b1, b2)` of the term-3 loops. -/
def t3Tuples (N L : Nat) : List (Nat × Nat × Nat × Nat) :=
  (List.range L).flatMap fun j =>
    ((List.range L).flatMap fun k =>
      (if 1 < (beadsAt N L j k).length then
        (List.range (beadsAt N L j k).length).flatMap fun b1 =>
          (List.range' (b1 + 1) ((beadsAt N L j k).length - (b1 + 1))).map fun b2 =>
            (b1, b2)
      else []).map fun r => (k, r)).map fun r => (j, r)

/-- Entry built from one term-3 loop tuple. -/
def t3Mk (N L : Nat) (t : Nat × Nat × Nat × Nat) : QEntry :=
  (((beadsAt N L t.1 t.2.1).getD t.2.2.1 (0, 0, 0),
    (beadsAt N L t.1 t.2.1).getD t.2.2.2 (0, 0, 0)), 10)

lemma term3_eq_tuples (N L : Nat) :
    term3Entries N L = (t3Tuples N L).map (t3Mk N L) := by
  simp only [term3Entries, pairsOf, t3Tuples, t3Mk, List.map_flatMap,
    List.map_map, apply_ite (List.map _), List.map_nil]
  rfl

lemma t3Tuples_nodup (N L : Nat) : (t3Tuples N L).Nodup := by
  refine nodup_flatMap_pair (List.nodup_range L) fun j _ => ?_
  refine nodup_flatMap_pair (List.nodup_range L) fun k _ => ?_
  split_ifs
  · exact nodup_flatMap_pair (List.nodup_range _) fun b1 _ =>
      List.nodup_range' _ _
  · exact List.nodup_nil

lemma mem_t3Tuples {N L j k b1 b2 : Nat} :
    (j, k, b1, b2) ∈ t3Tuples N L ↔
      j < L ∧ k < L ∧ b1 < b2 ∧ b2 < (beadsAt N L j k).length := by
  simp only [t3Tuples, mem_flatMap_pair, mem_ite_nil, List.mem_range,
    List.mem_range'_1]
  constructor
  · rintro ⟨hj, hk, -, hb1, h2a, h2b⟩
    exact ⟨hj, hk, by omega, by omega⟩
  · rintro ⟨hj, hk, hlt, hlen⟩
    exact ⟨hj, hk, by omega, by omega, by omega, by omega⟩

lemma mem_term3 {N L : Nat} {e : QEntry} :
    e ∈ term3Entries N L ↔
      ∃ j k i1 i2, j < L ∧ k < L ∧ i1 < i2 ∧ i2 < N ∧
        (j + k) % 2 = i1 % 2 ∧ (j + k) % 2 = i2 % 2 ∧
        e = (((i1, j, k), (i2, j, k)), 10) := by
  rw [term3_eq_tuples, List.mem_map]
  constructor
  · rintro ⟨⟨j, k, b1, b2⟩, ht, rfl⟩
    rw [mem_t3Tuples] at ht
    obtain ⟨hj, hk, hlt, hlen⟩ := ht
    have hb1 : b1 < (beadsAt N L j k).length := by omega
    have hkey : ((beadsAt N L j k)[b1], (beadsAt N L j k)[b2]) ∈
        pairsOf (beadsAt N L j k) := by
      rw [mem_pairsOf (beadsAt_sorted N L j k)]
      exact ⟨List.getElem_mem hb1, List.getElem_mem hlen,
        List.pairwise_iff_getElem.mp (beadsAt_sorted N L j k) b1 b2 hb1 hlen hlt⟩
    obtain ⟨hm1, hm2, hord⟩ := (mem_pairsOf (beadsAt_sorted N L j k)).mp hkey
    obtain ⟨i1, hi1, -, -, hp1, he1⟩ := mem_beadsAt.mp hm1
    obtain ⟨i2, hi2, -, -, hp2, he2⟩ := mem_beadsAt.mp hm2
    refine ⟨j, k, i1, i2, hj, hk, ?_, hi2, hp1, hp2, ?_⟩
    · rw [he1, he2] at hord
      exact hord
    · simp only [t3Mk]
      rw [List.getD_eq_getElem _ _ hb1, List.getD_eq_getElem _ _ hlen, he1, he2]
  · rintro ⟨j, k, i1, i2, hj, hk, hlt, hi2, hp1, hp2, rfl⟩
    have hm1 : ((i1, j, k) : Var) ∈ beadsAt N L j k :=
      mem_beadsAt.mpr ⟨i1, by omega, hj, hk, hp1, rfl⟩
    have hm2 : ((i2, j, k) : Var) ∈ beadsAt N L j k :=
      mem_beadsAt.mpr ⟨i2, hi2, hj, hk, hp2, rfl⟩
    obtain ⟨b1, hb1, he1⟩ := List.mem_iff_getElem.mp hm1
    obtain ⟨b2, hb2, he2⟩ := List.mem_iff_getElem.mp hm2
    have hord : b1 < b2 := by
      rcases Nat.lt_trichotomy b1 b2 with h | h | h
      · exact h
      · subst h
        rw [he1] at he2
        have : i1 = i2 := congrArg Prod.fst he2
        omega
      · have := List.pairwise_iff_getElem.mp (beadsAt_sorted N L j k) b2 b1 hb2 hb1 h
        rw [he1, he2] at this
        simp only at this
        omega
    refine ⟨(j, k, b1, b2), mem_t3Tuples.mpr ⟨hj, hk, hord, hb2⟩, ?_⟩
    simp only [t3Mk]
    rw [List.getD_eq_getElem _ _ hb1, List.getD_eq_getElem _ _ hb2, he1, he2]

lemma term3_keys_nodup (N L : Nat) :
    ((term3Entries N L).map Prod.fst).Nodup := by
  rw [term3_eq_tuples, List.map_map]
  refine (t3Tuples_nodup N L).map_on ?_
  rintro ⟨j, k, b1, b2⟩ ht ⟨j', k', b1', b2'⟩ ht' h
  rw [mem_t3Tuples] at ht ht'
  obtain ⟨hj, hk, hlt, hlen⟩ := ht
  obtain ⟨hj', hk', hlt', hlen'⟩ := ht'
  have hb1 : b1 < (beadsAt N L j k).length := by omega
  have hb1' : b1' < (beadsAt N L j' k').length := by omega
  simp only [Function.comp_apply, t3Mk, Prod.mk.injEq] at h
  obtain ⟨h1, h2⟩ := h
  rw [List.getD_eq_getElem _ _ hb1, List.getD_eq_getElem _ _ hb1'] at h1
  rw [List.getD_eq_getElem _ _ hlen, List.getD_eq_getElem _ _ hlen'] at h2
  have hjk : j = j' ∧ k = k' := by
    have hml := List.getElem_mem hb1
    have hmr := List.getElem_mem hb1'
    obtain ⟨i1, -, -, -, -, he1⟩ := mem_beadsAt.mp hml
    obtain ⟨i1', -, -, -, -, he1'⟩ := mem_beadsAt.mp hmr
    rw [he1, he1'] at h1
    have hj2 := congrArg (fun v : Var => v.2.1) h1
    have hk2 := congrArg (fun v : Var => v.2.2) h1
    simp only at hj2 hk2
    exact ⟨hj2, hk2⟩
  obtain ⟨rfl, rfl⟩ := hjk
  have hb1eq : b1 = b1' :=
    (List.Nodup.getElem_inj_iff (beadsAt_nodup N L j k)).mp h1
  have hb2eq : b2 = b2' :=
    (List.Nodup.getElem_inj_iff (beadsAt_nodup N L j k)).mp h2
  simp [hb1eq, hb2eq]

/-! ### Per-term contribution characterizations -/

lemma manhattan_self (j k : Nat) : manhattan j j k k = 0 := by
  simp [manhattan]

lemma contribSum_term1 (seq : List Char) (L f j k fp jp kp : Nat) :
    contribSum (term1Entries seq L) ((f, j, k), (fp, jp, kp)) =
      if f + 2 ≤ fp ∧ fp < seq.length ∧
          seq.getD f ' ' = 'H' ∧ seq.getD fp ' ' = 'H' ∧
          j < L ∧ k < L ∧ jp < L ∧ kp < L ∧ manhattan j jp k kp = 1 ∧
          (j + k) % 2 = f % 2 ∧ (jp + kp) % 2 = fp % 2
      then -1 else 0 := by
  split_ifs with h
  · exact contribSum_eq_of_mem (term1_keys_nodup seq L)
      (mem_term1.mpr ⟨f, fp, j, k, jp, kp, h.1, h.2.1, h.2.2.1, h.2.2.2.1,
        h.2.2.2.2.1, h.2.2.2.2.2.1, h.2.2.2.2.2.2.1, h.2.2.2.2.2.2.2.1,
        h.2.2.2.2.2.2.2.2.1, h.2.2.2.2.2.2.2.2.2.1, h.2.2.2.2.2.2.2.2.2.2, rfl⟩)
  · refine contribSum_eq_zero fun e he hke => ?_
    obtain ⟨f', fp', j', k', jp', kp', h1, h2, h3, h4, h5, h6, h7, h8, h9,
      h10, h11, rfl⟩ := mem_term1.mp he
    simp only [Prod.mk.injEq] at hke
    obtain ⟨⟨rfl, rfl, rfl⟩, rfl, rfl, rfl⟩ := hke
    exact h ⟨h1, h2, h3, h4, h5, h6, h7, h8, h9, h10, h11⟩

lemma contribSum_term2 (N L i1 j1 k1 i2 j2 k2 : Nat) :
    contribSum (term2Entries N L) ((i1, j1, k1), (i2, j2, k2)) =
      if i2 = i1 ∧ i1 < N ∧ j1 < L ∧ k1 < L ∧ j2 < L ∧ k2 < L ∧
          (j1 + k1) % 2 = i1 % 2 ∧ (j2 + k2) % 2 = i1 % 2 ∧
          (j2, k2) ≠ (j1, k1)
      then 2 else 0 := by
  split_ifs with h
  · obtain ⟨rfl, h2, h3, h4, h5, h6, h7, h8, h9⟩ := h
    exact contribSum_eq_of_mem (term2_keys_nodup N L)
      (mem_term2.mpr ⟨i2, j1, k1, j2, k2, h2, h3, h4, h5, h6, h7, h8, h9, rfl⟩)
  · refine contribSum_eq_zero fun e he hke => ?_
    obtain ⟨i', j', k', jp', kp', h1, h2, h3, h4, h5, h6, h7, h8, rfl⟩ :=
      mem_term2.mp he
    simp only [Prod.mk.injEq] at hke
    obtain ⟨⟨rfl, rfl, rfl⟩, rfl, rfl, rfl⟩ := hke
    exact h ⟨rfl, h1, h2, h3, h4, h5, h6, h7, h8⟩

lemma contribSum_term3 (N L i1 j1 k1 i2 j2 k2 : Nat) :
    contribSum (term3Entries N L) ((i1, j1, k1), (i2, j2, k2)) =
      if j2 = j1 ∧ k2 = k1 ∧ i1 < i2 ∧ i2 < N ∧ j1 < L ∧ k1 < L ∧
          (j1 + k1) % 2 = i1 % 2 ∧ (j1 + k1) % 2 = i2 % 2
      then 10 else 0 := by
  split_ifs with h
  · obtain ⟨rfl, rfl, h3, h4, h5, h6, h7, h8⟩ := h
    exact contribSum_eq_of_mem (term3_keys_nodup N L)
      (mem_term3.mpr ⟨j2, k2, i1, i2, h5, h6, h3, h4, h7, h8, rfl⟩)
  · refine contribSum_eq_zero fun e he hke => ?_
    obtain ⟨j', k', i1', i2', h1, h2, h3, h4, h5, h6, rfl⟩ := mem_term3.mp he
    simp only [Prod.mk.injEq] at hke
    obtain ⟨⟨rfl, rfl, rfl⟩, rfl, rfl, rfl⟩ := hke
    exact h ⟨rfl, rfl, h3, h4, h1, h2, h5, h6⟩

lemma contribSum_term4 (N L i1 j1 k1 i2 j2 k2 : Nat) :
    contribSum (term4Entries N L) ((i1, j1, k1), (i2, j2, k2)) =
      if i2 = i1 + 1 ∧ i1 + 1 < N ∧ j1 < L ∧ k1 < L ∧ j2 < L ∧ k2 < L ∧
          (j1 + k1) % 2 = i1 % 2 ∧ manhattan j1 j2 k1 k2 = 1 ∧
          (j2 + k2) % 2 = (i1 + 1) % 2
      then -3 else 0 := by
  split_ifs with h
  · obtain ⟨rfl, h2, h3, h4, h5, h6, h7, h8, h9⟩ := h
    exact contribSum_eq_of_mem (term4_keys_nodup N L)
      (mem_term4.mpr ⟨i1, j1, k1, j2, k2, h2, h3, h4, h5, h6, h7, h8, h9, rfl⟩)
  · refine contribSum_eq_zero fun e he hke => ?_
    obtain ⟨i', j', k', jp', kp', h1, h2, h3, h4, h5, h6, h7, h8, rfl⟩ :=
      mem_term4.mp he
    simp only [Prod.mk.injEq] at hke
    obtain ⟨⟨rfl, rfl, rfl⟩, rfl, rfl, rfl⟩ := hke
    exact h ⟨rfl, h1, h2, h3, h4, h5, h6, h7, h8⟩

/-! ### Coefficient values and key shapes per term -/

lemma term1_coeff {seq : List Char} {L : Nat} {e : QEntry}
    (he : e ∈ term1Entries seq L) : e.2 = -1 := by
  obtain ⟨f, fp, j, k, jp, kp, -, -, -, -, -, -, -, -, -, -, -, rfl⟩ :=
    mem_term1.mp he
  rfl

lemma term2_coeff {N L : Nat} {e : QEntry}
    (he : e ∈ term2Entries N L) : e.2 = 2 := by
  obtain ⟨i, j, k, jp, kp, -, -, -, -, -, -, -, -, rfl⟩ := mem_term2.mp he
  rfl

lemma term3_coeff {N L : Nat} {e : QEntry}
    (he : e ∈ term3Entries N L) : e.2 = 10 := by
  obtain ⟨j, k, i1, i2, -, -, -, -, -, -, rfl⟩ := mem_term3.mp he
  rfl

lemma term4_coeff {N L : Nat} {e : QEntry}
    (he : e ∈ term4Entries N L) : e.2 = -3 := by
  obtain ⟨i, j, k, jp, kp, -, -, -, -, -, -, -, -, rfl⟩ := mem_term4.mp he
  rfl

/-! ### Pairwise disjointness of the four key sets -/

lemma keys_disj_12 {seq : List Char} {N L : Nat} :
    ∀ e1 ∈ term1Entries seq L, ∀ e2 ∈ term2Entries N L, e1.1 ≠ e2.1 := by
  intro e1 he1 e2 he2 heq
  obtain ⟨f, fp, j, k, jp, kp, h1, -, -, -, -, -, -, -, -, -, -, rfl⟩ :=
    mem_term1.mp he1
  obtain ⟨i, j', k', jp', kp', -, -, -, -, -, -, -, -, rfl⟩ := mem_term2.mp he2
  simp only [Prod.mk.injEq] at heq
  omega

lemma keys_disj_13 {seq : List Char} {N L : Nat} :
    ∀ e1 ∈ term1Entries seq L, ∀ e2 ∈ term3Entries N L, e1.1 ≠ e2.1 := by
  intro e1 he1 e2 he2 heq
  obtain ⟨f, fp, j, k, jp, kp, -, -, -, -, -, -, -, -, hm, -, -, rfl⟩ :=
    mem_term1.mp he1
  obtain ⟨j', k', i1, i2, -, -, -, -, -, -, rfl⟩ := mem_term3.mp he2
  simp only [Prod.mk.injEq] at heq
  obtain ⟨⟨-, rfl, rfl⟩, -, rfl, rfl⟩ := heq
  rw [manhattan_self] at hm
  exact absurd hm (by omega)

lemma keys_disj_14 {seq : List Char} {N L : Nat} :
    ∀ e1 ∈ term1Entries seq L, ∀ e2 ∈ term4Entries N L, e1.1 ≠ e2.1 := by
  intro e1 he1 e2 he2 heq
  obtain ⟨f, fp, j, k, jp, kp, h1, -, -, -, -, -, -, -, -, -, -, rfl⟩ :=
    mem_term1.mp he1
  obtain ⟨i, j', k', jp', kp', -, -, -, -, -, -, -, -, rfl⟩ := mem_term4.mp he2
  simp only [Prod.mk.injEq] at heq
  omega

lemma keys_disj_23 {N L N' L' : Nat} :
    ∀ e1 ∈ term2Entries N L, ∀ e2 ∈ term3Entries N' L', e1.1 ≠ e2.1 := by
  intro e1 he1 e2 he2 heq
  obtain ⟨i, j, k, jp, kp, -, -, -, -, -, -, -, -, rfl⟩ := mem_term2.mp he1
  obtain ⟨j', k', i1, i2, -, -, h3, -, -, -, rfl⟩ := mem_term3.mp he2
  simp only [Prod.mk.injEq] at heq
  omega

lemma keys_disj_24 {N L N' L' : Nat} :
    ∀ e1 ∈ term2Entries N L, ∀ e2 ∈ term4Entries N' L', e1.1 ≠ e2.1 := by
  intro e1 he1 e2 he2 heq
  obtain ⟨i, j, k, jp, kp, -, -, -, -, -, -, -, -, rfl⟩ := mem_term2.mp he1
  obtain ⟨i', j', k', jp', kp', -, -, -, -, -, -, -, -, rfl⟩ := mem_term4.mp he2
  simp only [Prod.mk.injEq] at heq
  omega

lemma keys_disj_34 {N L N' L' : Nat} :
    ∀ e1 ∈ term3Entries N L, ∀ e2 ∈ term4Entries N' L', e1.1 ≠ e2.1 := by
  intro e1 he1 e2 he2 heq
  obtain ⟨j, k, i1, i2, -, -, -, -, h5, h6, rfl⟩ := mem_term3.mp he1
  obtain ⟨i', j', k', jp', kp', -, -, -, -, -, -, hm, -, rfl⟩ := mem_term4.mp he2
  simp only [Prod.mk.injEq] at heq
  obtain ⟨⟨rfl, rfl, rfl⟩, heq2⟩ := heq
  obtain ⟨rfl, rfl, rfl⟩ := heq2
  rw [manhattan_self] at hm
  exact absurd hm (by omega)

/-! ### The assembled entry list and the final dictionary -/

lemma keys_map_disjoint {l1 l2 : List QEntry}
    (h : ∀ e1 ∈ l1, ∀ e2 ∈ l2, e1.1 ≠ e2.1) :
    (l1.map Prod.fst).Disjoint (l2.map Prod.fst) := by
  rw [List.disjoint_left]
  intro a ha1 ha2
  obtain ⟨e1, he1, rfl⟩ := List.mem_map.mp ha1
  obtain ⟨e2, he2, he⟩ := List.mem_map.mp ha2
  exact h e1 he1 e2 he2 he.symm

lemma allEntries_keys_nodup (seq : List Char) :
    ((allEntries seq).map Prod.fst).Nodup := by
  unfold allEntries
  simp only [List.map_append, List.append_assoc]
  refine List.Nodup.append (term1_keys_nodup _ _) ?_ ?_
  · refine List.Nodup.append (term2_keys_nodup _ _) ?_ ?_
    · exact List.Nodup.append (term3_keys_nodup _ _) (term4_keys_nodup _ _)
        (keys_map_disjoint keys_disj_34)
    · rw [List.disjoint_append_right]
      exact ⟨keys_map_disjoint keys_disj_23, keys_map_disjoint keys_disj_24⟩
  · rw [List.disjoint_append_right, List.disjoint_append_right]
    exact ⟨keys_map_disjoint keys_disj_12,
      keys_map_disjoint keys_disj_13, keys_map_disjoint keys_disj_14⟩

lemma contribSum_allEntries (seq : List Char) (p : QKey) :
    contribSum (allEntries seq) p =
      contribSum (term1Entries seq (latticeSize seq.length)) p +
        contribSum (term2Entries seq.length (latticeSize seq.length)) p +
          contribSum (term3Entries seq.length (latticeSize seq.length)) p +
            contribSum (term4Entries seq.length (latticeSize seq.length)) p := by
  unfold allEntries
  rw [contribSum_append, contribSum_append, contribSum_append]

lemma Q_getD (seq : List Char) (p : QKey) :
    (Q seq p).getD 0 = contribSum (allEntries seq) p :=
  buildQ_getD _ _

lemma allEntries_key_mono {seq : List Char} {e : QEntry}
    (he : e ∈ allEntries seq) : e.1.1.1 ≤ e.1.2.1 := by
  unfold allEntries at he
  simp only [List.mem_append] at he
  rcases he with ((he | he) | he) | he
  · obtain ⟨f, fp, j, k, jp, kp, h1, -, -, -, -, -, -, -, -, -, -, rfl⟩ :=
      mem_term1.mp he
    simp
    omega
  · obtain ⟨i, j, k, jp, kp, -, -, -, -, -, -, -, -, rfl⟩ := mem_term2.mp he
    simp
  · obtain ⟨j, k, i1, i2, -, -, h3, -, -, -, rfl⟩ := mem_term3.mp he
    simp
    omega
  · obtain ⟨i, j, k, jp, kp, -, -, -, -, -, -, -, -, rfl⟩ := mem_term4.mp he
    simp

lemma Q_none_of_fst_gt {seq : List Char} {A B : Var} (h : B.1 < A.1) :
    Q seq (A, B) = none := by
  refine buildQ_eq_none fun e he hke => ?_
  have := allEntries_key_mono he
  rw [hke] at this
  simp only at this
  omega

lemma Q_some_coeff {seq : List Char} {p : QKey} {c : Int}
    (h : Q seq p = some c) : c = -1 ∨ c = 2 ∨ c = 10 ∨ c = -3 := by
  have hex : ∃ e ∈ allEntries seq, e.1 = p := by
    by_contra hne
    push_neg at hne
    rw [Q, buildQ_eq_none hne] at h
    cases h
  have hc : c = contribSum (allEntries seq) p := by
    have hg := Q_getD seq p
    rw [h] at hg
    simpa using hg
  obtain ⟨e, he, hke⟩ := hex
  have hmem : (p, e.2) ∈ allEntries seq := by
    rw [← hke]
    exact Prod.mk.eta.symm ▸ he
  have hval : contribSum (allEntries seq) p = e.2 :=
    contribSum_eq_of_mem (allEntries_keys_nodup seq) hmem
  rw [hc, hval]
  unfold allEntries at he
  simp only [List.mem_append] at he
  rcases he with ((he | he) | he) | he
  · exact Or.inl (term1_coeff he)
  · exact Or.inr (Or.inl (term2_coeff he))
  · exact Or.inr (Or.inr (Or.inl (term3_coeff he)))
  · exact Or.inr (Or.inr (Or.inr (term4_coeff he)))

lemma contribSum_term1_same_bead (seq : List Char) (L i j1 k1 j2 k2 : Nat) :
    contribSum (term1Entries seq L) ((i, j1, k1), (i, j2, k2)) = 0 := by
  rw [contribSum_term1, if_neg]
  rintro ⟨h, -⟩
  omega

lemma contribSum_term3_same_bead (N L i j1 k1 j2 k2 : Nat) :
    contribSum (term3Entries N L) ((i, j1, k1), (i, j2, k2)) = 0 := by
  rw [contribSum_term3, if_neg]
  rintro ⟨-, -, h, -⟩
  omega

lemma contribSum_term4_same_bead (N L i j1 k1 j2 k2 : Nat) :
    contribSum (term4Entries N L) ((i, j1, k1), (i, j2, k2)) = 0 := by
  rw [contribSum_term4, if_neg]
  rintro ⟨h, -⟩
  omega

lemma Q_symm_same_bead (seq : List Char) (i j1 k1 j2 k2 : Nat) :
    (Q seq ((i, j1, k1), (i, j2, k2))).getD 0 =
      (Q seq ((i, j2, k2), (i, j1, k1))).getD 0 := by
  rw [Q_getD, Q_getD, contribSum_allEntries, contribSum_allEntries,
    contribSum_term1_same_bead, contribSum_term1_same_bead,
    contribSum_term3_same_bead, contribSum_term3_same_bead,
    contribSum_term4_same_bead, contribSum_term4_same_bead,
    contribSum_term2, contribSum_term2]
  have hiff : (i = i ∧ i < seq.length ∧ j1 < latticeSize seq.length ∧
        k1 < latticeSize seq.length ∧ j2 < latticeSize seq.length ∧
        k2 < latticeSize seq.length ∧ (j1 + k1) % 2 = i % 2 ∧
        (j2 + k2) % 2 = i % 2 ∧ (j2, k2) ≠ (j1, k1)) ↔
      (i = i ∧ i < seq.length ∧ j2 < latticeSize seq.length ∧
        k2 < latticeSize seq.length ∧ j1 < latticeSize seq.length ∧
        k1 < latticeSize seq.length ∧ (j2 + k2) % 2 = i % 2 ∧
        (j1 + k1) % 2 = i % 2 ∧ (j1, k1) ≠ (j2, k2)) := by
    constructor <;> rintro ⟨-, h2, h3, h4, h5, h6, h7, h8, h9⟩ <;>
      exact ⟨rfl, h2, h5, h6, h3, h4, h8, h7, Ne.symm h9⟩
  rw [if_congr hiff rfl rfl]

/-! ### Variable-name strings and the result decoder

The script names variables by `f"x_{i}_{j}_{k}"` and decodes a sample by
`parts = variable_name.split('_'); i = int(parts[1]); j = int(parts[2]);
k = int(parts[3]); positions[i] = (j, k)` for entries with value 1.  Names
are modelled as `List Char`; decimal rendering uses `Nat.digits`.  Integer
parsing is modelled as a total fold; on the decimal digit strings produced
by the encoder (the only strings the round-trip claim concerns) it agrees
with Python's `int`. -/

/-- The decimal digit character for `d`. -/
def digitChar (d : Nat) : Char := Char.ofNat (48 + d)

/-- Decimal rendering of a natural, most significant digit first. -/
def natToChars (n : Nat) : List Char :=
  if n = 0 then ['0'] else ((Nat.digits 10 n).map digitChar).reverse

/-- The characters of the variable name `f"x_{i}_{j}_{k}"`. -/
def nameChars (i j k : Nat) : List Char :=
  'x' :: '_' :: (natToChars i ++ '_' :: (natToChars j ++ '_' :: natToChars k))

/-- Prepend a character to the first group of a split result. -/
def consHead (c : Char) : List (List Char) → List (List Char)
  | [] => [[c]]
  | g :: gs => (c :: g) :: gs

/-- Python's `split('_')` on a character list. -/
def splitUnd : List Char → List (List Char)
  | [] => [[]]
  | c :: cs => if c = '_' then [] :: splitUnd cs else consHead c (splitUnd cs)

/-- Python's `int` on a decimal digit string (total model). -/
def parseNat (cs : List Char) : Nat :=
  cs.foldl (fun acc c => 10 * acc + (c.toNat - 48)) 0

/-- One iteration of the decoding loop: on an entry with value 1, parse the
name and overwrite the decoded bead's position. -/
def decodeStep (pos : Nat → Option (Nat × Nat)) (e : List Char × Nat) :
    Nat → Option (Nat × Nat) :=
  if e.2 = 1 then
    fun b =>
      if b = parseNat ((splitUnd e.1).getD 1 []) then
        some (parseNat ((splitUnd e.1).getD 2 []),
          parseNat ((splitUnd e.1).getD 3 []))
      else pos b
  else pos

/-- The `positions` dictionary built by the decoding loop, as a partial map
from bead index to coordinate. -/
def positionsOf (sample : List (List Char × Nat)) : Nat → Option (Nat × Nat) :=
  sample.foldl decodeStep fun _ => none

lemma digitChar_toNat {d : Nat} (hd : d < 10) : (digitChar d).toNat = 48 + d := by
  interval_cases d <;> decide

lemma digitChar_ne_und {d : Nat} (hd : d < 10) : digitChar d ≠ '_' := by
  interval_cases d <;> decide

lemma natToChars_ne_und {n : Nat} : ∀ c ∈ natToChars n, c ≠ '_' := by
  unfold natToChars
  split_ifs with h
  · intro c hc
    rw [List.mem_singleton] at hc
    subst hc
    decide
  · intro c hc
    rw [List.mem_reverse] at hc
    obtain ⟨d, hd, rfl⟩ := List.mem_map.mp hc
    exact digitChar_ne_und (Nat.digits_lt_base (by norm_num) hd)

lemma splitUnd_no_und {cs : List Char} (h : ∀ c ∈ cs, c ≠ '_') :
    splitUnd cs = [cs] := by
  induction cs with
  | nil => rfl
  | cons c cs ih =>
    simp only [splitUnd]
    rw [if_neg (h c (List.mem_cons_self c cs)),
      ih (fun c' hc' => h c' (List.mem_cons_of_mem _ hc'))]
    rfl

lemma splitUnd_append_und {cs : List Char} (rest : List Char)
    (h : ∀ c ∈ cs, c ≠ '_') :
    splitUnd (cs ++ '_' :: rest) = cs :: splitUnd rest := by
  induction cs with
  | nil =>
    simp [splitUnd]
  | cons c cs ih =>
    rw [List.cons_append]
    simp only [splitUnd]
    rw [if_neg (h c (List.mem_cons_self c cs)),
      ih (fun c' hc' => h c' (List.mem_cons_of_mem _ hc'))]
    rfl

lemma splitUnd_nameChars (i j k : Nat) :
    splitUnd (nameChars i j k) =
      [['x'], natToChars i, natToChars j, natToChars k] := by
  unfold nameChars
  simp only [splitUnd]
  rw [splitUnd_append_und _ natToChars_ne_und,
    splitUnd_append_und _ natToChars_ne_und,
    splitUnd_no_und natToChars_ne_und]
  rfl

lemma foldl_digits (ds : List Nat) (hds : ∀ d ∈ ds, d < 10) : ∀ a : Nat,
    List.foldl (fun acc c => 10 * acc + (c.toNat - 48)) a
        ((ds.map digitChar).reverse) =
      a * 10 ^ ds.length + Nat.ofDigits 10 ds := by
  induction ds with
  | nil =>
    intro a
    simp [Nat.ofDigits_nil]
  | cons d ds ih =>
    intro a
    rw [List.map_cons, List.reverse_cons, List.foldl_append,
      ih (fun d' hd' => hds d' (List.mem_cons_of_mem _ hd')) a]
    simp only [List.foldl_cons, List.foldl_nil]
    rw [digitChar_toNat (hds d (List.mem_cons_self d ds)), Nat.ofDigits_cons]
    have hsub : 48 + d - 48 = d := by omega
    rw [hsub, List.length_cons, pow_succ]
    ring

lemma parseNat_natToChars (n : Nat) : parseNat (natToChars n) = n := by
  unfold natToChars parseNat
  split_ifs with h
  · subst h
    decide
  · rw [foldl_digits _ (fun d hd => Nat.digits_lt_base (by norm_num) hd) 0]
    simp [Nat.ofDigits_digits]

lemma parse_name_bead (i j k : Nat) :
    parseNat ((splitUnd (nameChars i j k)).getD 1 []) = i := by
  rw [splitUnd_nameChars]
  show parseNat (natToChars i) = i
  exact parseNat_natToChars i

lemma parse_name_row (i j k : Nat) :
    parseNat ((splitUnd (nameChars i j k)).getD 2 []) = j := by
  rw [splitUnd_nameChars]
  show parseNat (natToChars j) = j
  exact parseNat_natToChars j

lemma parse_name_col (i j k : Nat) :
    parseNat ((splitUnd (nameChars i j k)).getD 3 []) = k := by
  rw [splitUnd_nameChars]
  show parseNat (natToChars k) = k
  exact parseNat_natToChars k

/-- The string encoding `"x_i_j_k"` of variable identities is injective. -/
lemma nameChars_inj {i j k i' j' k' : Nat}
    (h : nameChars i j k = nameChars i' j' k') : i = i' ∧ j = j' ∧ k = k' := by
  refine ⟨?_, ?_, ?_⟩
  · have h1 : parseNat ((splitUnd (nameChars i j k)).getD 1 []) =
        parseNat ((splitUnd (nameChars i' j' k')).getD 1 []) := by rw [h]
    rw [parse_name_bead, parse_name_bead] at h1
    exact h1
  · have h1 : parseNat ((splitUnd (nameChars i j k)).getD 2 []) =
        parseNat ((splitUnd (nameChars i' j' k')).getD 2 []) := by rw [h]
    rw [parse_name_row, parse_name_row] at h1
    exact h1
  · have h1 : parseNat ((splitUnd (nameChars i j k)).getD 3 []) =
        parseNat ((splitUnd (nameChars i' j' k')).getD 3 []) := by rw [h]
    rw [parse_name_col, parse_name_col] at h1
    exact h1

lemma positionsOf_foldl (i j k : Nat) :
    ∀ (sample : List (List Char × Nat)) (acc : Nat → Option (Nat × Nat)),
      (∀ e ∈ sample, ∃ a b c, e.1 = nameChars a b c) →
      (∀ a b c, (nameChars a b c, 1) ∈ sample → a = i → b = j ∧ c = k) →
      ((nameChars i j k, 1) ∈ sample ∨ acc i = some (j, k)) →
      (sample.foldl decodeStep acc) i = some (j, k) := by
  intro sample
  induction sample with
  | nil =>
    rintro acc - - (h | h)
    · cases h
    · exact h
  | cons e es ih =>
    rintro acc hform huniq hstart
    rw [List.foldl_cons]
    obtain ⟨a, b, c, he1⟩ := hform e (List.mem_cons_self e es)
    refine ih _ (fun e' he' => hform e' (List.mem_cons_of_mem _ he'))
      (fun a' b' c' h' ha' =>
        huniq a' b' c' (List.mem_cons_of_mem _ h') ha') ?_
    by_cases hv : e.2 = 1
    · by_cases hai : a = i
      · subst hai
        have hemem : (nameChars a b c, 1) ∈ e :: es := by
          have hmk : (e.1, e.2) ∈ e :: es := by
            rw [Prod.mk.eta]
            exact List.mem_cons_self e es
          rw [he1, hv] at hmk
          exact hmk
        obtain ⟨rfl, rfl⟩ := huniq a b c hemem rfl
        right
        simp only [decodeStep, hv, if_pos, he1, parse_name_bead,
          parse_name_row, parse_name_col]
      · rcases hstart with hmem | hacc
        · rcases List.mem_cons.mp hmem with hh | hh
          · exfalso
            have hfst : nameChars i j k = e.1 := congrArg Prod.fst hh
            rw [he1] at hfst
            exact hai ((nameChars_inj hfst).1).symm
          · exact Or.inl hh
        · right
          simp only [decodeStep, hv, if_pos, he1, parse_name_bead]
          rw [if_neg (fun hh => hai hh.symm)]
          exact hacc
    · rcases hstart with hmem | hacc
      · rcases List.mem_cons.mp hmem with hh | hh
        · exfalso
          exact hv (congrArg Prod.snd hh).symm
        · exact Or.inl hh
      · right
        simp only [decodeStep, hv, if_neg]
        exact hacc

/-! ### Claim theorems -/

/-- C1: for every sequence of length at least 2 (with the derived lattice
size), the final QUBO coefficient of every pair key equals the sum of the
four structural terms' contributions at that key (an absent key counting
as 0); a key touched by any entry is present and holds exactly the total
contribution sum; and permuting the additions leaves every coefficient
unchanged — contributions are accumulated additively, never overwritten,
and never lost. -/
theorem qubo_accumulation_c1 (seq : List Char) (hN : 2 ≤ seq.length) :
    (∀ p : QKey, (Q seq p).getD 0 =
        contribSum (term1Entries seq (latticeSize seq.length)) p +
          contribSum (term2Entries seq.length (latticeSize seq.length)) p +
            contribSum (term3Entries seq.length (latticeSize seq.length)) p +
              contribSum (term4Entries seq.length (latticeSize seq.length)) p) ∧
    (∀ p : QKey, (∃ e ∈ allEntries seq, e.1 = p) →
        Q seq p = some (contribSum (allEntries seq) p)) ∧
    (∀ entries' : List QEntry, (allEntries seq).Perm entries' →
        ∀ p : QKey, (buildQ entries' p).getD 0 = (Q seq p).getD 0) := by
  refine ⟨fun p => ?_, fun p h => ?_, fun entries' hperm p => ?_⟩
  · rw [Q_getD, contribSum_allEntries]
  · rw [Q]
    exact buildQ_eq_some h
  · rw [buildQ_getD, Q_getD]
    exact contribSum_perm hperm.symm p

theorem qubo_accumulation_c1_witness :
    Q ['H', 'H'] ((0, 0, 0), (1, 0, 1)) =
      some (contribSum (allEntries ['H', 'H']) ((0, 0, 0), (1, 0, 1))) :=
  (qubo_accumulation_c1 ['H', 'H'] (by decide)).2.1 _
    ⟨(((0, 0, 0), (1, 0, 1)), -3), by decide, rfl⟩

/-- C2 counterexample: the final QUBO mapping of the sequence "HH" is not
symmetric under pair order — the key ((0,0,0),(1,0,1)) carries -3 while
the reversed key is absent (coefficient 0). -/
theorem qubo_pair_symmetry_counterexample :
    ¬ (∀ A B : Var, A ≠ B →
        (Q ['H', 'H'] (A, B)).getD 0 = (Q ['H', 'H'] (B, A)).getD 0) := by
  intro h
  have hc := h (0, 0, 0) (1, 0, 1) (by decide)
  exact absurd hc (by decide)

/-- C2 amended: coefficient symmetry holds for every pair of variables of
the same bead index; for different bead indices the dictionary stores only
the orientation with the smaller bead index first, so every key whose
first variable has the strictly larger bead index is absent. -/
theorem qubo_pair_symmetry_amended_c2 (seq : List Char) :
    (∀ i j1 k1 j2 k2 : Nat,
        (Q seq ((i, j1, k1), (i, j2, k2))).getD 0 =
          (Q seq ((i, j2, k2), (i, j1, k1))).getD 0) ∧
    (∀ A B : Var, B.1 < A.1 → Q seq (A, B) = none) :=
  ⟨fun i j1 k1 j2 k2 => Q_symm_same_bead seq i j1 k1 j2 k2,
    fun _ _ h => Q_none_of_fst_gt h⟩

theorem qubo_pair_symmetry_amended_c2_witness :
    Q ['H', 'H'] ((1, 0, 1), (0, 0, 0)) = none :=
  (qubo_pair_symmetry_amended_c2 ['H', 'H']).2 (1, 0, 1) (0, 0, 0) (by decide)

/-- C3: for every sequence of length N ≥ 2 and L = N/2+1, the variable set
holds exactly one variable per parity-valid triple and none otherwise; the
per-bead count is ⌈L²/2⌉ for even bead index and ⌊L²/2⌋ for odd; and the
total count is the sum of the per-bead counts. -/
theorem variable_enumeration_c3 (seq : List Char) (hN : 2 ≤ seq.length) :
    (∀ i j k : Nat,
        (i, j, k) ∈ variablesOf seq.length (latticeSize seq.length) ↔
          i < seq.length ∧ j < latticeSize seq.length ∧
            k < latticeSize seq.length ∧ (j + k) % 2 = i % 2) ∧
    (variablesOf seq.length (latticeSize seq.length)).Nodup ∧
    (∀ i : Nat, i < seq.length →
        (variablesOf seq.length (latticeSize seq.length)).countP
            (fun v => decide (v.1 = i)) =
          if i % 2 = 0 then
            (latticeSize seq.length * latticeSize seq.length + 1) / 2
          else latticeSize seq.length * latticeSize seq.length / 2) ∧
    (variablesOf seq.length (latticeSize seq.length)).length =
      ((List.range seq.length).map fun i =>
        (variablesOf seq.length (latticeSize seq.length)).countP
          fun v => decide (v.1 = i)).sum :=
  ⟨fun _ _ _ => mem_variablesOf, variablesOf_nodup _ _,
    fun i hi => countP_variablesOf _ _ i hi, length_variablesOf _ _⟩

theorem variable_enumeration_c3_witness :
    (variablesOf (['H', 'H', 'H'] : List Char).length
        (latticeSize (['H', 'H', 'H'] : List Char).length)).countP
        (fun v => decide (v.1 = 0)) =
      if 0 % 2 = 0 then
        (latticeSize (['H', 'H', 'H'] : List Char).length *
          latticeSize (['H', 'H', 'H'] : List Char).length + 1) / 2
      else latticeSize (['H', 'H', 'H'] : List Char).length *
        latticeSize (['H', 'H', 'H'] : List Char).length / 2 :=
  (variable_enumeration_c3 ['H', 'H', 'H'] (by decide)).2.2.1 0 (by decide)

/-- C4: term 1 adds exactly -1 at precisely the keys pairing two 'H' beads
at sequence distance at least 2 on parity-consistent neighbouring
coordinates (every term-1 entry carries -1), and for a sequence with no
two 'H' residues at distance at least 2 term 1 contributes no entries. -/
theorem term1_characterization_c4 :
    (∀ (seq : List Char) (L f j k fp jp kp : Nat),
        contribSum (term1Entries seq L) ((f, j, k), (fp, jp, kp)) =
          if f + 2 ≤ fp ∧ fp < seq.length ∧
              seq.getD f ' ' = 'H' ∧ seq.getD fp ' ' = 'H' ∧
              j < L ∧ k < L ∧ jp < L ∧ kp < L ∧ manhattan j jp k kp = 1 ∧
              (j + k) % 2 = f % 2 ∧ (jp + kp) % 2 = fp % 2
          then -1 else 0) ∧
    (∀ (seq : List Char) (L : Nat), ∀ e ∈ term1Entries seq L, e.2 = -1) ∧
    (∀ (seq : List Char) (L : Nat),
        (∀ f fp : Nat, f + 2 ≤ fp → fp < seq.length →
          ¬(seq.getD f ' ' = 'H' ∧ seq.getD fp ' ' = 'H')) →
        term1Entries seq L = []) := by
  refine ⟨fun seq L f j k fp jp kp => contribSum_term1 seq L f j k fp jp kp,
    fun seq L e he => term1_coeff he, fun seq L h => ?_⟩
  rw [List.eq_nil_iff_forall_not_mem]
  intro e he
  obtain ⟨f, fp, j, k, jp, kp, h1, h2, hH1, hH2, -⟩ := mem_term1.mp he
  exact h f fp h1 h2 ⟨hH1, hH2⟩

theorem term1_characterization_c4_witness :
    term1Entries ['P', 'P'] 2 = [] :=
  term1_characterization_c4.2.2 ['P', 'P'] 2
    (by
      intro f fp h1 h2
      exfalso
      simp only [List.length_cons, List.length_nil] at h2
      omega)

/-- C5: term 4 adds exactly -3 at precisely the keys pairing a bead `i`
(`i + 1 < N`) at a parity-valid coordinate with bead `i + 1` at a
parity-valid neighbouring coordinate, and at no other key; every term-4
entry carries -3. -/
theorem term4_characterization_c5 :
    (∀ N L i1 j1 k1 i2 j2 k2 : Nat,
        contribSum (term4Entries N L) ((i1, j1, k1), (i2, j2, k2)) =
          if i2 = i1 + 1 ∧ i1 + 1 < N ∧ j1 < L ∧ k1 < L ∧ j2 < L ∧ k2 < L ∧
              (j1 + k1) % 2 = i1 % 2 ∧ manhattan j1 j2 k1 k2 = 1 ∧
              (j2 + k2) % 2 = (i1 + 1) % 2
          then -3 else 0) ∧
    (∀ N L : Nat, ∀ e ∈ term4Entries N L, e.2 = -3) :=
  ⟨fun N L i1 j1 k1 i2 j2 k2 => contribSum_term4 N L i1 j1 k1 i2 j2 k2,
    fun _ _ _ he => term4_coeff he⟩

theorem term4_characterization_c5_witness :
    ((((0, 0, 0), (1, 0, 1)), -3) : QEntry).2 = -3 :=
  term4_characterization_c5.2 2 2 (((0, 0, 0), (1, 0, 1)), -3) (by decide)

/-- C6: term 3 adds exactly +10 at precisely the keys pairing two distinct
beads (smaller bead index first) that may occupy the same parity-valid
coordinate, and at no other key; every term-3 entry carries +10, and the
coefficient magnitudes dominate in the fixed order 10 > 3 > 1 for every
sequence and lattice size. -/
theorem term3_characterization_c6 :
    (∀ N L i1 j1 k1 i2 j2 k2 : Nat,
        contribSum (term3Entries N L) ((i1, j1, k1), (i2, j2, k2)) =
          if j2 = j1 ∧ k2 = k1 ∧ i1 < i2 ∧ i2 < N ∧ j1 < L ∧ k1 < L ∧
              (j1 + k1) % 2 = i1 % 2 ∧ (j1 + k1) % 2 = i2 % 2
          then 10 else 0) ∧
    (∀ N L : Nat, ∀ e ∈ term3Entries N L, e.2 = 10) ∧
    (∀ (seq : List Char) (N L : Nat),
        ∀ e3 ∈ term3Entries N L, ∀ e4 ∈ term4Entries N L,
          ∀ e1 ∈ term1Entries seq L,
            e4.2.natAbs < e3.2.natAbs ∧ e1.2.natAbs < e4.2.natAbs) := by
  refine ⟨fun N L i1 j1 k1 i2 j2 k2 => contribSum_term3 N L i1 j1 k1 i2 j2 k2,
    fun _ _ _ he => term3_coeff he,
    fun seq N L e3 he3 e4 he4 e1 he1 => ?_⟩
  rw [term3_coeff he3, term4_coeff he4, term1_coeff he1]
  decide

theorem term3_characterization_c6_witness :
    ((((-3 : Int).natAbs < (10 : Int).natAbs) ∧
      ((-1 : Int).natAbs < (-3 : Int).natAbs)) : Prop) :=
  term3_characterization_c6.2.2 ['H', 'P', 'P', 'H'] 4 3
    (((0, 0, 0), (2, 0, 0)), 10) (by decide)
    (((0, 0, 0), (1, 0, 1)), -3) (by decide)
    (((0, 0, 0), (3, 0, 1)), -1) (by decide)

/-- C7: term 2 adds exactly +2 at precisely the ordered pairs of distinct
parity-valid coordinates of one bead, and every term-2 key pairs two
variables of the same bead index. -/
theorem term2_characterization_c7 :
    (∀ N L i j1 k1 j2 k2 : Nat,
        contribSum (term2Entries N L) ((i, j1, k1), (i, j2, k2)) =
          if i < N ∧ j1 < L ∧ k1 < L ∧ j2 < L ∧ k2 < L ∧
              (j1 + k1) % 2 = i % 2 ∧ (j2 + k2) % 2 = i % 2 ∧
              (j2, k2) ≠ (j1, k1)
          then 2 else 0) ∧
    (∀ N L : Nat, ∀ e ∈ term2Entries N L, e.1.1.1 = e.1.2.1 ∧ e.2 = 2) := by
  constructor
  · intro N L i j1 k1 j2 k2
    rw [contribSum_term2]
    exact if_congr ⟨fun h => h.2, fun h => ⟨rfl, h⟩⟩ rfl rfl
  · intro N L e he
    obtain ⟨i, j, k, jp, kp, -, -, -, -, -, -, -, -, rfl⟩ := mem_term2.mp he
    exact ⟨rfl, rfl⟩

theorem term2_characterization_c7_witness :
    ((((0, 0, 0), (0, 1, 1)), 2) : QEntry).1.1.1 =
        ((((0, 0, 0), (0, 1, 1)), 2) : QEntry).1.2.1 ∧
      ((((0, 0, 0), (0, 1, 1)), 2) : QEntry).2 = 2 :=
  term2_characterization_c7.2 2 2 (((0, 0, 0), (0, 1, 1)), 2) (by decide)

/-- C8: the construction is total on arbitrary sequences: every dictionary
access is guarded, so each entry's two variables belong to the variable
dictionary; every term-1 entry has residue 'H' at both of its sequence
positions (a position holding any other character simply produces no
term-1 entry); and terms 2-4 depend on the sequence only through its
length. -/
theorem permissive_input_c8 :
    (∀ seq : List Char, ∀ e ∈ allEntries seq,
        e.1.1 ∈ variablesOf seq.length (latticeSize seq.length) ∧
        e.1.2 ∈ variablesOf seq.length (latticeSize seq.length)) ∧
    (∀ (seq : List Char) (L : Nat), ∀ e ∈ term1Entries seq L,
        seq.getD e.1.1.1 ' ' = 'H' ∧ seq.getD e.1.2.1 ' ' = 'H') ∧
    (∀ seq seq' : List Char, seq.length = seq'.length →
        term2Entries seq.length (latticeSize seq.length) =
            term2Entries seq'.length (latticeSize seq'.length) ∧
          term3Entries seq.length (latticeSize seq.length) =
            term3Entries seq'.length (latticeSize seq'.length) ∧
          term4Entries seq.length (latticeSize seq.length) =
            term4Entries seq'.length (latticeSize seq'.length)) := by
  refine ⟨fun seq e he => ?_, fun seq L e he => ?_, fun seq seq' h => ?_⟩
  · unfold allEntries at he
    simp only [List.mem_append] at he
    rcases he with ((he | he) | he) | he
    · obtain ⟨f, fp, j, k, jp, kp, h1, h2, -, -, h3, h4, h5, h6, -, h7, h8, rfl⟩ :=
        mem_term1.mp he
      exact ⟨mem_variablesOf.mpr ⟨by omega, h3, h4, h7⟩,
        mem_variablesOf.mpr ⟨h2, h5, h6, h8⟩⟩
    · obtain ⟨i, j, k, jp, kp, h1, h2, h3, h4, h5, h6, h7, -, rfl⟩ :=
        mem_term2.mp he
      exact ⟨mem_variablesOf.mpr ⟨h1, h2, h3, h6⟩,
        mem_variablesOf.mpr ⟨h1, h4, h5, h7⟩⟩
    · obtain ⟨j, k, i1, i2, h1, h2, h3, h4, h5, h6, rfl⟩ := mem_term3.mp he
      exact ⟨mem_variablesOf.mpr ⟨by omega, h1, h2, h5⟩,
        mem_variablesOf.mpr ⟨h4, h1, h2, h6⟩⟩
    · obtain ⟨i, j, k, jp, kp, h1, h2, h3, h4, h5, h6, -, h8, rfl⟩ :=
        mem_term4.mp he
      exact ⟨mem_variablesOf.mpr ⟨by omega, h2, h3, h6⟩,
        mem_variablesOf.mpr ⟨h1, h4, h5, h8⟩⟩
  · obtain ⟨f, fp, j, k, jp, kp, -, -, hH1, hH2, -, -, -, -, -, -, -, rfl⟩ :=
      mem_term1.mp he
    exact ⟨hH1, hH2⟩
  · rw [h]
    exact ⟨rfl, rfl, rfl⟩

theorem permissive_input_c8_witness :
    (((0 : Nat), (0 : Nat), (0 : Nat)) ∈ variablesOf 2 2) ∧
      (['H', 'P', 'P', 'H'] : List Char).getD 0 ' ' = 'H' := by
  constructor
  · exact (permissive_input_c8.1 ['Q', 'Z'] (((0, 0, 0), (0, 1, 1)), 2)
      (by decide)).1
  · exact (permissive_input_c8.2.1 ['H', 'P', 'P', 'H'] 3
      (((0, 0, 0), (3, 0, 1)), -1) (by decide)).1

/-- C9: decoder round trip — for every assignment whose identifiers have
the form `x_i_j_k` with values in 0/1 in which, for each bead index, at
most the single variable `x_i_j_k` is set to 1 (and it is set), decoding
recovers exactly the coordinate encoded in that variable's identifier. -/
theorem decoder_roundtrip_c9 (sample : List (List Char × Nat))
    (hform : ∀ e ∈ sample, ∃ a b c : Nat, e.1 = nameChars a b c)
    (hbin : ∀ e ∈ sample, e.2 = 0 ∨ e.2 = 1)
    (i j k : Nat)
    (hone : (nameChars i j k, 1) ∈ sample)
    (huniq : ∀ a b c : Nat,
      (nameChars a b c, 1) ∈ sample → a = i → b = j ∧ c = k) :
    positionsOf sample i = some (j, k) :=
  positionsOf_foldl i j k sample (fun _ => none) hform huniq (Or.inl hone)

theorem decoder_roundtrip_c9_witness :
    positionsOf [(nameChars 0 0 0, 1), (nameChars 1 0 1, 1)] 0 =
      some (0, 0) := by
  refine decoder_roundtrip_c9 _ ?_ ?_ 0 0 0 ?_ ?_
  · intro e he
    rcases List.mem_cons.mp he with rfl | he
    · exact ⟨0, 0, 0, rfl⟩
    rcases List.mem_cons.mp he with rfl | he
    · exact ⟨1, 0, 1, rfl⟩
    cases he
  · intro e he
    rcases List.mem_cons.mp he with rfl | he
    · exact Or.inr rfl
    rcases List.mem_cons.mp he with rfl | he
    · exact Or.inr rfl
    cases he
  · exact List.mem_cons_self _ _
  · intro a b c hm ha
    rcases List.mem_cons.mp hm with hh | hm
    · have h1 := congrArg Prod.fst hh
      obtain ⟨-, rfl, rfl⟩ := nameChars_inj h1
      exact ⟨rfl, rfl⟩
    rcases List.mem_cons.mp hm with hh | hm
    · have h1 := congrArg Prod.fst hh
      obtain ⟨rfl, -, -⟩ := nameChars_inj h1
      cases ha
    cases hm

/-- C10: for every sequence of length ≥ 2, every dictionary key pairs two
distinct variables, no key is written twice (so each key receives exactly
one contribution), the four terms write pairwise disjoint key sets, and
every coefficient of the final dictionary is exactly one of -1, +2, +10,
-3. -/
theorem key_disjointness_c10 (seq : List Char) (hN : 2 ≤ seq.length) :
    (∀ e ∈ allEntries seq, e.1.1 ≠ e.1.2) ∧
    ((allEntries seq).map Prod.fst).Nodup ∧
    (∀ e1 ∈ term1Entries seq (latticeSize seq.length),
      ∀ e2 ∈ term2Entries seq.length (latticeSize seq.length),
        e1.1 ≠ e2.1) ∧
    (∀ e1 ∈ term1Entries seq (latticeSize seq.length),
      ∀ e3 ∈ term3Entries seq.length (latticeSize seq.length),
        e1.1 ≠ e3.1) ∧
    (∀ e1 ∈ term1Entries seq (latticeSize seq.length),
      ∀ e4 ∈ term4Entries seq.length (latticeSize seq.length),
        e1.1 ≠ e4.1) ∧
    (∀ e2 ∈ term2Entries seq.length (latticeSize seq.length),
      ∀ e3 ∈ term3Entries seq.length (latticeSize seq.length),
        e2.1 ≠ e3.1) ∧
    (∀ e2 ∈ term2Entries seq.length (latticeSize seq.length),
      ∀ e4 ∈ term4Entries seq.length (latticeSize seq.length),
        e2.1 ≠ e4.1) ∧
    (∀ e3 ∈ term3Entries seq.length (latticeSize seq.length),
      ∀ e4 ∈ term4Entries seq.length (latticeSize seq.length),
        e3.1 ≠ e4.1) ∧
    (∀ (p : QKey) (c : Int), Q seq p = some c →
        c = -1 ∨ c = 2 ∨ c = 10 ∨ c = -3) := by
  refine ⟨?_, allEntries_keys_nodup seq, keys_disj_12, keys_disj_13,
    keys_disj_14, keys_disj_23, keys_disj_24, keys_disj_34,
    fun p c h => Q_some_coeff h⟩
  intro e he
  unfold allEntries at he
  simp only [List.mem_append] at he
  rcases he with ((he | he) | he) | he
  · obtain ⟨f, fp, j, k, jp, kp, h1, -, -, -, -, -, -, -, -, -, -, rfl⟩ :=
      mem_term1.mp he
    intro heq
    have := congrArg Prod.fst heq
    simp only at this
    omega
  · obtain ⟨i, j, k, jp, kp, -, -, -, -, -, -, -, hne, rfl⟩ := mem_term2.mp he
    intro heq
    simp only [Prod.mk.injEq] at heq
    exact hne (by simp [heq.2.1, heq.2.2])
  · obtain ⟨j, k, i1, i2, -, -, h3, -, -, -, rfl⟩ := mem_term3.mp he
    intro heq
    have := congrArg Prod.fst heq
    simp only at this
    omega
  · obtain ⟨i, j, k, jp, kp, -, -, -, -, -, -, -, -, rfl⟩ := mem_term4.mp he
    intro heq
    have := congrArg Prod.fst heq
    simp only at this
    omega

theorem key_disjointness_c10_witness :
    Q ['H', 'H'] ((0, 0, 0), (1, 0, 1)) = some (-3) ∧
      ((-3 : Int) = -1 ∨ (-3 : Int) = 2 ∨ (-3 : Int) = 10 ∨
        (-3 : Int) = -3) :=
  ⟨by decide,
    (key_disjointness_c10 ['H', 'H'] (by decide)).2.2.2.2.2.2.2.2
      ((0, 0, 0), (1, 0, 1)) (-3) (by decide)⟩

